import Mathlib

/-!
Shallow embedding of the transportation-graph program (`graph_data.py`):
the `TransportationGraph` store, its mutations, Dijkstra search, route
details, network statistics and the CSV/JSON codecs, together with the
specification predicates (walk costs, reachability of stores through the
public operations) used to verify the documented properties.

Python floats are modelled as rationals (`ℚ`); `float('inf')` is the `⊤`
of `WithTop ℚ`.  Python dicts are association lists (first key wins, as
in a dict there is at most one binding per key); the node set is an
insertion-ordered duplicate-free list (set iteration order is not relied
upon by any property proved here).
-/

namespace TG

/-- Adjacency entry `(neighbor, distance, fare)` as stored in the Python
adjacency lists. -/
abbrev Adj := String × ℚ × ℚ

/-- The `TransportationGraph` object state: `self.nodes`, `self.edges`
(adjacency dict) and `self.coordinates`. -/
structure Store where
  nodes : List String
  edges : List (String × List Adj)
  coords : List (String × (ℚ × ℚ))
deriving DecidableEq

/-- The freshly constructed graph (`__init__`). -/
def emptyStore : Store := ⟨[], [], []⟩

/-- `self.edges.get(node, [])`: value of the first matching key, default `[]`. -/
def lookupEdges : List (String × List Adj) → String → List Adj
  | [], _ => []
  | (k, v) :: rest, n => if k = n then v else lookupEdges rest n

/-- `get_neighbors`: all `(neighbor, distance, fare)` entries of a node,
empty for an unknown node. -/
def get_neighbors (g : Store) (n : String) : List Adj := lookupEdges g.edges n

/-- `self.nodes.add(node)`: insert if absent. -/
def insertNew (n : String) (l : List String) : List String :=
  if n ∈ l then l else l ++ [n]

/-- `if node not in self.edges: self.edges[node] = []`. -/
def addNodeEdges (es : List (String × List Adj)) (n : String) : List (String × List Adj) :=
  if es.any (fun p => p.1 = n) then es else es ++ [(n, [])]

/-- Dict assignment `self.coordinates[node] = coordinates`. -/
def setCoord : List (String × (ℚ × ℚ)) → String → (ℚ × ℚ) → List (String × (ℚ × ℚ))
  | [], n, c => [(n, c)]
  | (k, v) :: rest, n, c => if k = n then (k, c) :: rest else (k, v) :: setCoord rest n c

/-- `add_node(node, coordinates=None)`; a supplied coordinate pair is a
non-empty tuple, hence truthy, so it is always stored. -/
def add_node (g : Store) (n : String) (c : Option (ℚ × ℚ)) : Store :=
  { nodes := insertNew n g.nodes
    edges := addNodeEdges g.edges n
    coords := match c with
      | none => g.coords
      | some cc => setCoord g.coords n cc }

/-- `self.edges[source].append(entry)`: append to the list bound at the
(first) matching key; the key is always present here because `add_edge`
calls `add_node` first. -/
def appendEdge : List (String × List Adj) → String → Adj → List (String × List Adj)
  | [], _, _ => []
  | (k, l) :: rest, n, e =>
      if k = n then (k, l ++ [e]) :: rest else (k, l) :: appendEdge rest n e

/-- `add_edge(source, destination, distance, fare)`: auto-create both
nodes, then append the two symmetric adjacency entries. -/
def add_edge (g : Store) (src dst : String) (d f : ℚ) : Store :=
  let g2 := add_node (add_node g src none) dst none
  { g2 with edges := appendEdge (appendEdge g2.edges src (dst, d, f)) dst (src, d, f) }

/-! ## Route details (`get_route_details`) -/

/-- One `{'from': ..., 'to': ..., 'distance': ..., 'fare': ...}` record. -/
structure RouteRec where
  fromNode : String
  toNode : String
  distance : ℚ
  fare : ℚ
deriving DecidableEq

/-- First entry of an adjacency list whose neighbor matches `t`
(the inner `for ... break` scan). -/
def findFirst : List Adj → String → Option (ℚ × ℚ)
  | [], _ => none
  | (n, d, f) :: rest, t => if n = t then some (d, f) else findFirst rest t

/-- The loop of `get_route_details` over consecutive pairs; a pair with no
matching adjacency entry contributes no record. -/
def routeDetailsAux (g : Store) : List String → List RouteRec
  | a :: b :: rest =>
      (match findFirst (get_neighbors g a) b with
        | some (d, f) => [RouteRec.mk a b d f]
        | none => []) ++ routeDetailsAux g (b :: rest)
  | _ => []

/-- `get_route_details(path)`: returns the list of per-edge records (and
nothing else; the totals accumulated inside the Python function are local
variables that are dropped at `return details`). -/
def get_route_details (g : Store) (path : List String) : List RouteRec :=
  if path.length < 2 then [] else routeDetailsAux g path

/-- The totals the Python function accumulates internally
(`total_distance`, `total_fare`): sums over the produced records. -/
def routeTotals (rs : List RouteRec) : ℚ × ℚ :=
  ((rs.map RouteRec.distance).sum, (rs.map RouteRec.fare).sum)

/-! ## Deduplicated edge scan (export and statistics) -/

/-- Python `Py_UNICODE_ISSPACE`, the exact whitespace set of
`str.strip()` and of `float()`'s surrounding-whitespace rule: the ASCII
controls 09–0D, the separators 1C–1F, the space, NEL 85, NBSP A0, Ogham
space 1680, the typographic spaces 2000–200A, the line and paragraph
separators 2028/2029, narrow NBSP 202F, medium mathematical space 205F
and ideographic space 3000. -/
def pyIsSpace (c : Char) : Bool :=
  (0x09 ≤ c.toNat && c.toNat ≤ 0x0d) || (0x1c ≤ c.toNat && c.toNat ≤ 0x1f)
  || c.toNat == 0x20 || c.toNat == 0x85 || c.toNat == 0xa0 || c.toNat == 0x1680
  || (0x2000 ≤ c.toNat && c.toNat ≤ 0x200a)
  || c.toNat == 0x2028 || c.toNat == 0x2029 || c.toNat == 0x202f
  || c.toNat == 0x205f || c.toNat == 0x3000

/-- Python `str.strip()`: drop the `Py_UNICODE_ISSPACE` characters from
both ends. -/
def pyStrip (s : String) : String :=
  ⟨((s.data.dropWhile pyIsSpace).reverse.dropWhile pyIsSpace).reverse⟩

/-- Python string comparison, character by character on code points. -/
def charsLtB : List Char → List Char → Bool
  | [], [] => false
  | [], _ :: _ => true
  | _ :: _, [] => false
  | c :: cs, d :: ds =>
      if c.toNat < d.toNat then true
      else if d.toNat < c.toNat then false
      else charsLtB cs ds

def strLtB (a b : String) : Bool := charsLtB a.data b.data

/-- `tuple(sorted([node, neighbor]))` for two strings. -/
def sortPair (a b : String) : String × String :=
  if strLtB b a then (b, a) else (a, b)

/-- An exported row `(origin, destination, distance, fare)`. -/
abbrev Row := String × String × ℚ × ℚ

/-- The unordered dedup key of a row. -/
def canonKey (r : Row) : String × String := sortPair r.1 r.2.1

/-- A row collapsed onto its unordered key (the claims' notion of a
"deduplicated edge": unordered node pair plus the two weights). -/
def canonRow (r : Row) : (String × String) × ℚ × ℚ := (canonKey r, r.2.2.1, r.2.2.2)

/-- The inner loop of the export scan over one node's adjacency list,
threading the `written_edges` set. -/
def dedupScanNode (u : String) :
    List Adj → List (String × String) → List Row × List (String × String)
  | [], seen => ([], seen)
  | (w, d, f) :: rest, seen =>
      if sortPair u w ∈ seen then dedupScanNode u rest seen
      else
        let out := dedupScanNode u rest (sortPair u w :: seen)
        ((u, w, d, f) :: out.1, out.2)

/-- The outer loop of the export scan over the node list. -/
def dedupScan (g : Store) : List String → List (String × String) → List Row
  | [], _ => []
  | u :: us, seen =>
      let out := dedupScanNode u (get_neighbors g u) seen
      out.1 ++ dedupScan g us out.2

/-- The deduplicated rows written by `export_to_csv` (and reused, with the
same traversal, by `export_to_json` and `get_network_statistics`): one row
per unordered node pair, first occurrence wins. -/
def dedupRows (g : Store) : List Row := dedupScan g g.nodes []

/-- All adjacency entries in scan order, as rows, without deduplication. -/
def scanRows (g : Store) : List Row :=
  (g.nodes.map (fun u => (get_neighbors g u).map (fun e => (u, e.1, e.2.1, e.2.2)))).flatten

/-- Generic first-wins deduplication of rows by unordered key. -/
def dedupByKey : List Row → List (String × String) → List Row
  | [], _ => []
  | r :: rest, seen =>
      if canonKey r ∈ seen then dedupByKey rest seen
      else r :: dedupByKey rest (canonKey r :: seen)

/-- `export_to_csv`: the header row and one data row per deduplicated
undirected edge.  (File I/O itself is outside the model; the value is the
sequence of rows written.) -/
def export_to_csv (g : Store) : List String × List Row :=
  (["Origin", "Destination", "Distance_km", "Fare_pesos"], dedupRows g)

/-! ## JSON codec -/

/-- One record of the exported `routes` array. -/
structure JsonRoute where
  origin : String
  destination : String
  distance : ℚ
  fare : ℚ
deriving DecidableEq

/-- The exported metadata object (the timestamp and the constant
description string are irrelevant to every property and omitted). -/
structure JsonMetadata where
  total_nodes : ℕ
  total_routes : ℕ
  nodesList : List String
deriving DecidableEq

/-- `export_to_json`: metadata plus the `routes` array built from the same
deduplicated edge scan as the CSV export. -/
def export_to_json (g : Store) : JsonMetadata × List JsonRoute :=
  let routes := (dedupRows g).map (fun r => JsonRoute.mk r.1 r.2.1 r.2.2.1 r.2.2.2)
  (⟨g.nodes.length, routes.length, g.nodes⟩, routes)

/-- The three accepted top-level JSON shapes: an object with a `routes`
key, an object with an `edges` key, or a bare array. -/
inductive JsonFile where
  | withRoutes (metadata : JsonMetadata) (routes : List JsonRoute)
  | withEdges (edges : List JsonRoute)
  | bare (routes : List JsonRoute)
deriving DecidableEq

/-- The record list `import_from_json` iterates over. -/
def routesOf : JsonFile → List JsonRoute
  | .withRoutes _ rs => rs
  | .withEdges rs => rs
  | .bare rs => rs

/-- Rebuild a store from rows by `add_edge`, starting from the reset
(empty) state. -/
def buildStore (rows : List Row) : Store :=
  rows.foldl (fun g r => add_edge g r.1 r.2.1 r.2.2.1 r.2.2.2) emptyStore

/-- `import_from_json`: reset, then `add_edge` for every record
(`float()` applied to a float is the identity). -/
def import_from_json (file : JsonFile) : Store :=
  buildStore ((routesOf file).map (fun r => (r.origin, r.destination, r.distance, r.fare)))

/-! ## CSV codec (import) -/

/-- A `csv.DictReader` row: the mapping from column name to cell string. -/
abbrev RawRow := List (String × String)

/-- `row.get(key)`. -/
def rowGet (r : RawRow) (k : String) : Option String :=
  (r.find? (fun p => p.1 = k)).map (fun p => p.2)

/-- The Python chain `row.get(k1) or row.get(k2) or ... or dflt`:
a missing key or an empty string is falsy. -/
def resolveField (r : RawRow) : List String → String → String
  | [], dflt => dflt
  | k :: rest, dflt =>
      match rowGet r k with
      | some s => if s = "" then resolveField r rest dflt else s
      | none => resolveField r rest dflt

def resolveOrigin (r : RawRow) : String :=
  pyStrip (resolveField r ["Origin", "origin", "From", "from"] "")

def resolveDestination (r : RawRow) : String :=
  pyStrip (resolveField r ["Destination", "destination", "To", "to"] "")

def resolveDistanceStr (r : RawRow) : String :=
  resolveField r ["Distance_km", "Distance (km)", "distance", "Distance"] "0"

def resolveFareStr (r : RawRow) : String :=
  resolveField r ["Fare_pesos", "Fare (₱)", "Fare (pesos)", "fare", "Fare"] "0"

/-- Accumulate the value of a digit string; `none` on a non-digit. -/
def digitsVal (acc : ℕ) : List Char → Option ℕ
  | [] => some acc
  | c :: cs => if c.isDigit then digitsVal (acc * 10 + (c.toNat - 48)) cs else none

/-- CPython's underscore rule for numeric strings: every `_` must sit
directly between two ASCII digits. -/
def underscoresOkAux (prev : Char) : List Char → Bool
  | [] => true
  | '_' :: rest =>
      match rest with
      | [] => false
      | d :: rest2 => prev.isDigit && d.isDigit && underscoresOkAux d rest2
  | c :: rest => underscoresOkAux c rest

def underscoresOk : List Char → Bool
  | [] => true
  | '_' :: _ => false
  | c :: rest => underscoresOkAux c rest

/-- ASCII lowercasing, for the case-insensitive `inf`/`nan` spellings. -/
def asciiLower (c : Char) : Char :=
  if 65 ≤ c.toNat ∧ c.toNat ≤ 90 then Char.ofNat (c.toNat + 32) else c

/-- The mantissa `digits [. digits]` with at least one digit, as an exact
rational. -/
def parseMantissa (cs : List Char) : Option ℚ :=
  let ip := cs.takeWhile (fun c => c ≠ '.')
  match cs.dropWhile (fun c => c ≠ '.') with
  | [] =>
      match digitsVal 0 ip with
      | some v => if ip = [] then none else some (v : ℚ)
      | none => none
  | _ :: fr =>
      match digitsVal 0 ip, digitsVal 0 fr with
      | some iv, some fv =>
          if ip = [] ∧ fr = [] then none
          else some ((iv : ℚ) + (fv : ℚ) / ((10 : ℚ) ^ fr.length))
      | _, _ => none

/-- The exponent `[sign] digits`. -/
def parseExpPart (cs : List Char) : Option ℤ :=
  match cs with
  | '+' :: ds =>
      match digitsVal 0 ds with
      | some v => if ds = [] then none else some (v : ℤ)
      | none => none
  | '-' :: ds =>
      match digitsVal 0 ds with
      | some v => if ds = [] then none else some (-(v : ℤ))
      | none => none
  | ds =>
      match digitsVal 0 ds with
      | some v => if ds = [] then none else some (v : ℤ)
      | none => none

/-- A `float()` result: an exact finite rational, or an accepted
non-finite value (`inf`, `-inf`, `nan`), which has no image in the ℚ
weight model. -/
inductive PyVal where
  | fin (q : ℚ) : PyVal
  | nonfin : PyVal
  deriving DecidableEq

/-- The unsigned body after the sign: the case-insensitive
`inf`/`infinity`/`nan` spellings or a decimal numeral with optional
fraction and exponent. -/
def pyFloatBody (cs : List Char) : Option PyVal :=
  let ls := cs.map asciiLower
  if ls = ['i', 'n', 'f'] ∨ ls = ['i', 'n', 'f', 'i', 'n', 'i', 't', 'y']
      ∨ ls = ['n', 'a', 'n'] then some PyVal.nonfin
  else
    let mant := cs.takeWhile (fun c => c ≠ 'e' ∧ c ≠ 'E')
    match cs.dropWhile (fun c => c ≠ 'e' ∧ c ≠ 'E') with
    | [] => (parseMantissa mant).map PyVal.fin
    | _ :: ex =>
        match parseMantissa mant, parseExpPart ex with
        | some m, some e => some (PyVal.fin (m * (10 : ℚ) ^ e))
        | _, _ => none

/-- C `isspace()` in the C locale: the blanks the ASCII-level number
parser tolerates around the numeral (the controls 1C–1F are *not* here:
`float("\x1c7")` raises although `"\x1c7".strip()` strips). -/
def cIsSpace (c : Char) : Bool := c.toNat == 0x20 || (0x09 ≤ c.toNat && c.toNat ≤ 0x0d)

/-- Python `float(str)`.  The string is first transformed as CPython
does: every *non-ASCII* `pyIsSpace` character becomes a plain space,
ASCII characters pass through, and any other non-ASCII character fails
the conversion unless it is a Unicode decimal digit.  Unicode digits lie
outside this model and fail here too — the import theorems below
therefore restrict the fields they constrain to ASCII text.  Then:
CPython's underscore rule, surrounding C-locale blanks, an optional sign
and the `pyFloatBody` grammar.  `none` models the `ValueError`; finite
values are kept as exact rationals (Python rounds each to the nearest
double, overflowing to `inf` beyond its range). -/
def pyFloat (s : String) : Option PyVal :=
  let cs0 := s.data.map (fun c => if 0x80 ≤ c.toNat ∧ pyIsSpace c then ' ' else c)
  if cs0.any (fun c => 0x80 ≤ c.toNat) then none
  else if underscoresOk cs0 then
    let cs1 := (cs0.filter (fun c => c ≠ '_')).dropWhile cIsSpace
    match (cs1.reverse.dropWhile cIsSpace).reverse with
    | '+' :: rest => pyFloatBody rest
    | '-' :: rest =>
        (pyFloatBody rest).map (fun v =>
          match v with
          | PyVal.fin q => PyVal.fin (-q)
          | PyVal.nonfin => PyVal.nonfin)
    | rest => pyFloatBody rest
  else none

/-- The finite exact value of `float(s)`, when there is one. -/
def parseFloat (s : String) : Option ℚ :=
  match pyFloat s with
  | some (PyVal.fin q) => some q
  | _ => none

/-- The stored weight of an accepted numeric field.  The non-finite
`float` values have no ℚ image; the placeholder is never relied on —
every theorem below that asserts a created edge assumes finite fields. -/
def pyValQ : PyVal → ℚ
  | PyVal.fin q => q
  | PyVal.nonfin => 0

/-- All characters ASCII: on this range `pyFloat` decides acceptance
exactly as Python `float()` does. -/
def asciiOnly (s : String) : Bool := s.data.all (fun c => c.toNat < 0x80)

/-- One iteration of the `import_from_csv` row loop: a row with a blank
origin or destination (after alias resolution and strip) is skipped; a
numeric field that fails `float()` raises, surfacing only the offending
string (the row index is not part of the error); the distance is
converted before the fare. -/
def importCsvStep (g : Store) (r : RawRow) : Store × Option String :=
  if resolveOrigin r ≠ "" ∧ resolveDestination r ≠ "" then
    match pyFloat (resolveDistanceStr r) with
    | none => (g, some (resolveDistanceStr r))
    | some dv =>
        match pyFloat (resolveFareStr r) with
        | none => (g, some (resolveFareStr r))
        | some fv =>
            (add_edge g (resolveOrigin r) (resolveDestination r) (pyValQ dv) (pyValQ fv), none)
  else (g, none)

/-- The row loop: an exception aborts the remaining rows, leaving the
partially rebuilt store. -/
def importCsvFrom (g : Store) : List RawRow → Store × Option String
  | [] => (g, none)
  | r :: rest =>
      match importCsvStep g r with
      | (g2, none) => importCsvFrom g2 rest
      | (g2, some e) => (g2, some e)

/-- `import_from_csv`: reset the store, then process the parsed rows in
order; the second component is the `ValueError` payload if one was
raised. -/
def import_from_csv (rows : List RawRow) : Store × Option String :=
  importCsvFrom emptyStore rows

/-! ## Network statistics -/

/-- Python `min` over a list, with the code's `if xs else 0` default. -/
def listMinD : List ℚ → ℚ
  | [] => 0
  | x :: xs => xs.foldl min x

/-- Python `max` over a list, with the code's `if xs else 0` default. -/
def listMaxD : List ℚ → ℚ
  | [] => 0
  | x :: xs => xs.foldl max x

/-- `sum(xs) / len(xs) if xs else 0`. -/
def listAvgD (l : List ℚ) : ℚ :=
  match l with
  | [] => 0
  | _ => l.sum / (l.length : ℚ)

/-- Insertion sort on strings, modelling Python `sorted`. -/
def insertSorted (s : String) : List String → List String
  | [] => [s]
  | t :: ts => if strLtB s t then s :: t :: ts else t :: insertSorted s ts

def sortStrings (l : List String) : List String := l.foldr insertSorted []

/-- The statistics dictionary returned for a non-empty node set.  The
triples/quadruples are `(min, max, avg)` resp. `(min, max, avg, total)`. -/
structure NetStats where
  total_nodes : ℕ
  total_edges : ℕ
  nodesSorted : List String
  distance_stats : ℚ × ℚ × ℚ × ℚ
  fare_stats : ℚ × ℚ × ℚ × ℚ
  efficiency_stats : ℚ × ℚ × ℚ
  connectivity : List (String × ℕ)
deriving DecidableEq

/-- `get_network_statistics`: `{}` (here `none`) for an empty node set,
otherwise the full statistics record.  The distance/fare/efficiency lists
are the per-deduplicated-edge values in scan order, exactly as collected
by the Python loop (which repeats the export scan). -/
def get_network_statistics (g : Store) : Option NetStats :=
  if g.nodes = [] then none
  else
    let rows := dedupRows g
    let distances := rows.map (fun r => r.2.2.1)
    let fares := rows.map (fun r => r.2.2.2)
    let efficiencies := rows.filterMap
      (fun r => if 0 < r.2.2.1 then some (r.2.2.2 / r.2.2.1) else none)
    some
      { total_nodes := g.nodes.length
        total_edges := distances.length
        nodesSorted := sortStrings g.nodes
        distance_stats :=
          (listMinD distances, listMaxD distances, listAvgD distances, distances.sum)
        fare_stats := (listMinD fares, listMaxD fares, listAvgD fares, fares.sum)
        efficiency_stats :=
          (listMinD efficiencies, listMaxD efficiencies, listAvgD efficiencies)
        connectivity := g.nodes.map (fun n => (n, (get_neighbors g n).length)) }

/-! ## Dijkstra -/

/-- A frontier entry `(cost, node, path)` as pushed on the Python heap. -/
abbrev Entry := ℚ × String × List String

/-- Python lexicographic comparison of string lists. -/
def listLtStr : List String → List String → Bool
  | [], [] => false
  | [], _ :: _ => true
  | _ :: _, [] => false
  | a :: xs, b :: ys =>
      if strLtB a b then true else if strLtB b a then false else listLtStr xs ys

/-- Python tuple comparison of two heap entries. -/
def entryLt (e1 e2 : Entry) : Bool :=
  if e1.1 < e2.1 then true
  else if e2.1 < e1.1 then false
  else if strLtB e1.2.1 e2.2.1 then true
  else if strLtB e2.2.1 e1.2.1 then false
  else listLtStr e1.2.2 e2.2.2

/-- Select the minimum entry (`heapq.heappop` pops a minimum under the
tuple order; entries equal under it are identical tuples). -/
def popMinAux (e : Entry) (acc : List Entry) : List Entry → Entry × List Entry
  | [] => (e, acc.reverse)
  | x :: xs =>
      if entryLt x e then popMinAux x (e :: acc) xs else popMinAux e (x :: acc) xs

def popMin : List Entry → Option (Entry × List Entry)
  | [] => none
  | x :: xs => some (popMinAux x [] xs)

/-- `weight = fare if weight_type == 'fare' else distance`. -/
def costOfStep (wt : String) (d f : ℚ) : ℚ := if wt = "fare" then f else d

/-- The neighbor relaxation loop of one Dijkstra iteration: `c` and `p`
are the popped cost and path, `vis` the visited set already containing the
popped node.  Returns the pushed entries (in push order) and the updated
distance map. -/
def relaxAll (c : ℚ) (p : List String) (vis : List String) (wt : String) :
    List Adj → (String → WithTop ℚ) → List Entry × (String → WithTop ℚ)
  | [], dist => ([], dist)
  | (b, d, f) :: rest, dist =>
      if b ∈ vis then relaxAll c p vis wt rest dist
      else
        let nc := c + costOfStep wt d f
        if (nc : WithTop ℚ) < dist b then
          let out := relaxAll c p vis wt rest (fun x => if x = b then (nc : WithTop ℚ) else dist x)
          ((nc, b, p ++ [b]) :: out.1, out.2)
        else relaxAll c p vis wt rest dist

/-- Every node name that can ever appear in the frontier: the node set
together with every adjacency target. -/
def nodeUniverse (g : Store) : List String :=
  g.nodes ++ (g.edges.map (fun p => p.2.map (fun e => e.1))).flatten

/-- An upper bound on the number of loop iterations (total pops never
exceed total pushes, which is one initial push plus at most one push per
adjacency entry of a distinct visited node). -/
def fuelBound (g : Store) : ℕ :=
  1 + (((nodeUniverse g).dedup).map (fun n => (get_neighbors g n).length)).sum

/-- The Dijkstra main loop.  The fuel is only a structural-recursion
device: `fuelBound` is proved sufficient, and exhaustion returns the same
sentinel as an empty frontier. -/
def dijkstraLoop (g : Store) (wt endN : String) :
    ℕ → List Entry → List String → (String → WithTop ℚ) → List String × WithTop ℚ
  | 0, _, _, _ => ([], ⊤)
  | fuel + 1, pq, visited, dist =>
      match popMin pq with
      | none => ([], ⊤)
      | some (e, rest) =>
          if e.2.1 ∈ visited then dijkstraLoop g wt endN fuel rest visited dist
          else if e.2.1 = endN then (e.2.2, (e.1 : WithTop ℚ))
          else
            let out := relaxAll e.1 e.2.2 (e.2.1 :: visited) wt (get_neighbors g e.2.1) dist
            dijkstraLoop g wt endN fuel (rest ++ out.1) (e.2.1 :: visited) out.2

/-- `dijkstra(start, end, weight_type)`: the sentinel for an unknown
endpoint, otherwise the search from the initial frontier
`[(0, start, [start])]` with `distances = {n: inf}` + `distances[start] = 0`.
(Lookups `distances[neighbor]` are total here; on every store reachable
through the public operations each neighbor is a node, matching the
Python dict.) -/
def dijkstra (g : Store) (start endN wt : String) : List String × WithTop ℚ :=
  if start ∈ g.nodes ∧ endN ∈ g.nodes then
    dijkstraLoop g wt endN (fuelBound g) [(0, start, [start])] []
      (fun n => if n = start then (0 : WithTop ℚ) else ⊤)
  else ([], ⊤)

/-! ## The seed network (`create_transportation_network`) -/

def seedNodes : List (String × (ℚ × ℚ)) :=
  [("Tagoloan", (0, 0)), ("Gusa", (20, 10)), ("Balulang", (10, 5)),
   ("Carmen", (25, 0)), ("Pagatpat", (15, 15)), ("Iponan", (30, 20)),
   ("Indahag", (35, 25)), ("Taguanao", (25, 30))]

def seedRoutes : List Row :=
  [("Tagoloan", "Gusa", 22.9, 30), ("Tagoloan", "Balulang", 15.5, 25),
   ("Tagoloan", "Carmen", 30.0, 40), ("Gusa", "Balulang", 10.0, 15),
   ("Gusa", "Carmen", 20.0, 25), ("Balulang", "Pagatpat", 12.0, 20),
   ("Carmen", "Iponan", 18.0, 35), ("Pagatpat", "Taguanao", 25.0, 30),
   ("Iponan", "Indahag", 14.0, 20), ("Taguanao", "Indahag", 16.0, 25)]

/-- `create_transportation_network()`: add the eight nodes with their
coordinates, then the ten routes. -/
def create_transportation_network : Store :=
  seedRoutes.foldl (fun g r => add_edge g r.1 r.2.1 r.2.2.1 r.2.2.2)
    (seedNodes.foldl (fun g p => add_node g p.1 (some p.2)) emptyStore)

/-! ## Specification predicates -/

/-- The possible weights of one step `a → b`: the chosen metric of each
adjacency entry of `a` pointing to `b`. -/
def stepWeights (g : Store) (wt : String) (a b : String) : List ℚ :=
  (get_neighbors g a).filterMap
    (fun e => if e.1 = b then some (costOfStep wt e.2.1 e.2.2) else none)

/-- `PathCost g wt a l c`: starting at `a` and visiting the successor list
`l`, every step is realised by some adjacency entry, and the chosen
metric sums to `c`. -/
inductive PathCost (g : Store) (wt : String) : String → List String → ℚ → Prop where
  | nil (a : String) : PathCost g wt a [] 0
  | cons {a b : String} {w c : ℚ} {rest : List String} :
      w ∈ stepWeights g wt a b → PathCost g wt b rest c → PathCost g wt a (b :: rest) (w + c)

/-- Final node of the walk `a :: l`. -/
def lastOf (a : String) (l : List String) : String := l.getLastD a

/-- `c` is the total metric of some walk from `u` to `v`. -/
def ConnCost (g : Store) (wt : String) (u v : String) (c : ℚ) : Prop :=
  ∃ l, PathCost g wt u l c ∧ lastOf u l = v

/-- Some walk connects `u` to `v` (independent of the metric). -/
inductive HasWalk (g : Store) : String → String → Prop where
  | refl (a : String) : HasWalk g a a
  | step {a b c : String} {d f : ℚ} :
      (b, d, f) ∈ get_neighbors g a → HasWalk g b c → HasWalk g a c

/-- The stores reachable from a fresh `TransportationGraph()` through the
public mutations.  The import constructors cover both successful imports
and imports aborted by a `ValueError` (which leave the partially rebuilt
store behind). -/
inductive Reachable : Store → Prop where
  | empty : Reachable emptyStore
  | addNode {g : Store} (n : String) (c : Option (ℚ × ℚ)) :
      Reachable g → Reachable (add_node g n c)
  | addEdge {g : Store} (u v : String) (d f : ℚ) :
      Reachable g → Reachable (add_edge g u v d f)
  | importCsv (rows : List RawRow) : Reachable (import_from_csv rows).1
  | importJson (file : JsonFile) : Reachable (import_from_json file)

/-- Every stored weight is non-negative. -/
abbrev NonnegStore (g : Store) : Prop :=
  ∀ p ∈ g.edges, ∀ e ∈ p.2, 0 ≤ e.2.1 ∧ 0 ≤ e.2.2

/-- Adjacency symmetry: the multiset of `(v, d, f)` entries stored under
`u` matches, entry for entry, the multiset of `(u, d, f)` entries stored
under `v`. -/
def SymAdj (g : Store) : Prop :=
  ∀ u v : String, ∀ d f : ℚ,
    (get_neighbors g u).count (v, d, f) = (get_neighbors g v).count (u, d, f)

/-- A frontier entry records a real walk from `start` ending at its node. -/
def EntryOk (g : Store) (wt start : String) (e : Entry) : Prop :=
  ∃ l, e.2.2 = start :: l ∧ PathCost g wt start l e.1 ∧ lastOf start l = e.2.1

/-- The basic invariant of the Dijkstra loop state. -/
structure InvB (g : Store) (wt start : String)
    (pq : List Entry) (visited : List String) (dist : String → WithTop ℚ) : Prop where
  entries : ∀ e ∈ pq, EntryOk g wt start e ∧ dist e.2.1 ≤ (e.1 : WithTop ℚ)
  pending : ∀ n, n ∉ visited → dist n ≠ ⊤ → ∃ e ∈ pq, e.2.1 = n ∧ (e.1 : WithTop ℚ) = dist n
  relaxed : ∀ m ∈ visited, ∀ e ∈ get_neighbors g m, e.1 ∉ visited →
      dist e.1 ≤ dist m + (costOfStep wt e.2.1 e.2.2 : WithTop ℚ)
  visFin : ∀ m ∈ visited, dist m ≠ ⊤
  startLe : dist start ≤ (0 : ℚ)
  inUniv : ∀ e ∈ pq, e.2.1 ∈ nodeUniverse g

/-- The optimality invariant: a settled node's distance is a lower bound
on the cost of every walk reaching it from `start`. -/
def InvMin (g : Store) (wt start : String) (visited : List String)
    (dist : String → WithTop ℚ) : Prop :=
  ∀ m ∈ visited, ∀ c, ConnCost g wt start m c → dist m ≤ (c : WithTop ℚ)

/-- Remaining relaxation budget: total adjacency size of the unvisited
universe nodes. -/
def budgetOf (g : Store) (visited : List String) : ℕ :=
  (((nodeUniverse g).dedup.filter (fun n => !(visited.contains n))).map
    (fun n => (get_neighbors g n).length)).sum

/-- The loop measure: pending pops plus possible future pushes. -/
def measureOf (g : Store) (pq : List Entry) (visited : List String) : ℕ :=
  pq.length + budgetOf g visited

/-- Every consecutive pair of the path has a matching adjacency entry. -/
def allAdjacentB (g : Store) : List String → Bool
  | a :: b :: rest => (findFirst (get_neighbors g a) b).isSome && allAdjacentB g (b :: rest)
  | _ => true

abbrev AllAdjacent (g : Store) (p : List String) : Prop := allAdjacentB g p = true

/-- A `csv.DictReader` row faithfully carrying one exported data row:
exactly the four exported columns, node cells verbatim, weight cells
parsing back to the exported weights (exact serialization — the
floating-point-tolerance slack of the round-trip property). -/
def EncodesRow (raw : RawRow) (r : Row) : Prop :=
  ∃ sd sf,
    raw = [("Origin", r.1), ("Destination", r.2.1), ("Distance_km", sd), ("Fare_pesos", sf)]
    ∧ parseFloat sd = some r.2.2.1 ∧ parseFloat sf = some r.2.2.2

/-- The parsed CSV file matches the exported rows, row for row. -/
def Encodes (raws : List RawRow) (rows : List Row) : Prop :=
  List.Forall₂ EncodesRow raws rows

/-- Node names that survive the import-side strip-and-skip untouched:
non-blank and free of surrounding whitespace. -/
abbrev GoodNames (g : Store) : Prop :=
  ∀ r ∈ dedupRows g,
    pyStrip r.1 = r.1 ∧ r.1 ≠ "" ∧ pyStrip r.2.1 = r.2.1 ∧ r.2.1 ≠ ""

/-! ## Theorems -/

/-- The seed network is built through the public mutations. -/
theorem reachable_seed : Reachable create_transportation_network := by
  unfold create_transportation_network seedRoutes seedNodes
  simp only [List.foldl]
  repeat
    first
      | exact Reachable.empty
      | apply Reachable.addEdge
      | apply Reachable.addNode

unseal Rat.add Rat.ofScientific Rat.mul Rat.inv Rat.sub in
/-- C1: on the graph built by `create_transportation_network`, the call
`shortest_path("Tagoloan", "Indahag", "fare")` returns the path
Tagoloan→Carmen→Iponan→Indahag at cost exactly 95 pesos, preferring it
over the alternative Tagoloan→Balulang→Pagatpat→Taguanao→Indahag, whose
fares total 100. -/
theorem c1_seed_fare_route :
    dijkstra create_transportation_network "Tagoloan" "Indahag" "fare"
      = (["Tagoloan", "Carmen", "Iponan", "Indahag"], ((95 : ℚ) : WithTop ℚ))
    ∧ routeTotals (get_route_details create_transportation_network
        ["Tagoloan", "Balulang", "Pagatpat", "Taguanao", "Indahag"]) = (68.5, 100) :=
  ⟨by decide, by decide⟩

unseal Rat.add Rat.ofScientific Rat.mul Rat.inv Rat.sub in
/-- C8: evaluating `get_route_details` at the failing input
`["Tagoloan", "Gusa"]` on the seed network.  The function returns only
the list of per-edge records; the totals it accumulates internally
(`routeTotals` of the result) are dropped at `return details`, and no
efficiency value is computed or returned anywhere in the function. -/
theorem c8_route_details_returns_records_only :
    get_route_details create_transportation_network ["Tagoloan", "Gusa"]
      = [RouteRec.mk "Tagoloan" "Gusa" 22.9 30]
    ∧ routeTotals (get_route_details create_transportation_network ["Tagoloan", "Gusa"])
      = (22.9, 30) :=
  ⟨by decide, by decide⟩

/-- C9 counterexample: on a store whose nodes "A" and "B" share no edge,
the 2-node path `["A", "B"]` produces 0 records, not n − 1 = 1: a
consecutive pair without a matching adjacency entry is silently skipped. -/
theorem c9_counterexample :
    (get_route_details (add_node (add_node emptyStore "A" none) "B" none) ["A", "B"]).length
      ≠ (["A", "B"] : List String).length - 1 := by decide

/-- The record list produced by the `get_route_details` loop, for a path
all of whose consecutive pairs are matched: one record per pair, carrying
the first matching entry's weights. -/
theorem routeDetailsAux_spec (g : Store) :
    ∀ p : List String, AllAdjacent g p →
      (routeDetailsAux g p).length = p.length - 1
      ∧ ∀ i a b, p[i]? = some a → p[i + 1]? = some b →
          ∃ d f, findFirst (get_neighbors g a) b = some (d, f)
            ∧ (routeDetailsAux g p)[i]? = some (RouteRec.mk a b d f)
  | [] => by
      intro _
      refine ⟨rfl, ?_⟩
      intro i a b ha
      simp at ha
  | [a] => by
      intro _
      refine ⟨rfl, ?_⟩
      intro i a' b ha hb
      rcases i with _ | i
      · simp at hb
      · simp at ha
  | a :: b :: rest => by
      intro h
      rw [AllAdjacent, allAdjacentB, Bool.and_eq_true] at h
      obtain ⟨h1, h2⟩ := h
      obtain ⟨⟨d, f⟩, heq⟩ := Option.isSome_iff_exists.mp h1
      obtain ⟨ihlen, ihidx⟩ := routeDetailsAux_spec g (b :: rest) h2
      have hdef : routeDetailsAux g (a :: b :: rest)
          = RouteRec.mk a b d f :: routeDetailsAux g (b :: rest) := by
        simp [routeDetailsAux, heq]
      refine ⟨?_, ?_⟩
      · simp [hdef, ihlen]
      · intro i a' b' ha hb
        rcases i with _ | i
        · simp at ha hb
          subst ha
          subst hb
          exact ⟨d, f, heq, by simp [hdef]⟩
        · rw [List.getElem?_cons_succ] at ha hb
          obtain ⟨d', f', hff, hrec⟩ := ihidx i a' b' ha hb
          exact ⟨d', f', hff, by simp [hdef, hrec]⟩

/-- C9 (amended): for every path of n ≥ 2 node identifiers all of whose
consecutive pairs are matched by an adjacency entry, `route_details`
produces exactly n−1 records, the i-th joining path[i] to path[i+1] with
the distance and fare of the first entry matching path[i+1] in path[i]'s
neighbor list.  (Pairs with no matching entry are skipped, so without the
adjacency hypothesis fewer records can be produced.) -/
theorem c9_route_details_records (g : Store) (p : List String)
    (hp : 2 ≤ p.length) (h : AllAdjacent g p) :
    (get_route_details g p).length = p.length - 1
    ∧ ∀ i a b, p[i]? = some a → p[i + 1]? = some b →
        ∃ d f, findFirst (get_neighbors g a) b = some (d, f)
          ∧ (get_route_details g p)[i]? = some (RouteRec.mk a b d f) := by
  have hlt : ¬ p.length < 2 := by omega
  have : get_route_details g p = routeDetailsAux g p := by
    simp [get_route_details, hlt]
  rw [this]
  exact routeDetailsAux_spec g p h

/-- Witness for C9 (amended) at the seed network and the path
Tagoloan→Gusa. -/
theorem c9_route_details_records_witness :
    2 ≤ (["Tagoloan", "Gusa"] : List String).length
    ∧ AllAdjacent create_transportation_network ["Tagoloan", "Gusa"]
    ∧ ((get_route_details create_transportation_network ["Tagoloan", "Gusa"]).length
        = (["Tagoloan", "Gusa"] : List String).length - 1) :=
  ⟨by decide, by decide,
    (c9_route_details_records create_transportation_network ["Tagoloan", "Gusa"]
      (by decide) (by decide)).1⟩

/-- A skipped row (blank origin or destination) leaves the import fold of
the remaining rows unchanged. -/
theorem importCsvFrom_skip (r : RawRow)
    (hr : resolveOrigin r = "" ∨ resolveDestination r = "") :
    ∀ pre : List RawRow, ∀ g post,
      importCsvFrom g (pre ++ r :: post) = importCsvFrom g (pre ++ post)
  | [] => by
      intro g post
      have hstep : importCsvStep g r = (g, none) := by
        have : ¬ (resolveOrigin r ≠ "" ∧ resolveDestination r ≠ "") := by
          rcases hr with h | h <;> simp [h]
        simp [importCsvStep, this]
      simp only [List.nil_append, importCsvFrom, hstep]
  | p :: pre => by
      intro g post
      simp only [List.cons_append, importCsvFrom]
      rcases hps : importCsvStep g p with ⟨g2, e⟩
      rcases e with _ | e
      · exact importCsvFrom_skip r hr pre g2 post
      · rfl

/-- C6 counterexample: the row `Origin=A, Destination=B, Fare_pesos=5`
with no distance field at all is imported without any error, and the edge
is created with the distance coerced to 0 — contradicting "surfaced as a
structured error ..., never coerced to zero and never silently skipped". -/
theorem c6_counterexample :
    (import_from_csv [[("Origin", "A"), ("Destination", "B"), ("Fare_pesos", "5")]]).2 = none
    ∧ get_neighbors
        (import_from_csv [[("Origin", "A"), ("Destination", "B"), ("Fare_pesos", "5")]]).1 "A"
      = [("B", 0, 5)] :=
  ⟨by decide, by decide⟩

/-- A finite `parseFloat` value is a finite `pyFloat` value. -/
theorem parseFloat_pyFloat (s : String) (q : ℚ) (h : parseFloat s = some q) :
    pyFloat s = some (PyVal.fin q) := by
  rcases hp : pyFloat s with _ | v
  · simp only [parseFloat, hp] at h
    exact Option.noConfusion h
  · cases v with
    | fin q2 =>
        simp only [parseFloat, hp, Option.some.injEq] at h
        rw [h]
    | nonfin =>
        simp only [parseFloat, hp] at h
        exact Option.noConfusion h

/-- C6 (amended): a row whose origin or destination is blank after alias
resolution and Python strip is skipped; a missing (all aliases falsy)
distance or fare field falls back to the literal "0" and the edge is
created with weight 0 on that side and no error; a distance field that
Python `float()` rejects aborts the import with a `ValueError` carrying
only that string — no row index; when the distance converts, a rejected
fare field aborts the same way carrying the fare string (the distance is
converted first).  The rejection clauses are stated for ASCII field
text, where the `pyFloat` model decides acceptance exactly as `float()`
does. -/
theorem c6_csv_row_handling :
    (∀ pre r post, resolveOrigin r = "" ∨ resolveDestination r = "" →
        import_from_csv (pre ++ r :: post) = import_from_csv (pre ++ post))
    ∧ (∀ g r fv, resolveOrigin r ≠ "" → resolveDestination r ≠ "" →
        resolveDistanceStr r = "0" → pyFloat (resolveFareStr r) = some (PyVal.fin fv) →
        importCsvStep g r = (add_edge g (resolveOrigin r) (resolveDestination r) 0 fv, none))
    ∧ (∀ g r dv, resolveOrigin r ≠ "" → resolveDestination r ≠ "" →
        pyFloat (resolveDistanceStr r) = some (PyVal.fin dv) → resolveFareStr r = "0" →
        importCsvStep g r = (add_edge g (resolveOrigin r) (resolveDestination r) dv 0, none))
    ∧ (∀ g r, resolveOrigin r ≠ "" → resolveDestination r ≠ "" →
        asciiOnly (resolveDistanceStr r) = true →
        pyFloat (resolveDistanceStr r) = none →
        importCsvStep g r = (g, some (resolveDistanceStr r)))
    ∧ (∀ g r dv, resolveOrigin r ≠ "" → resolveDestination r ≠ "" →
        pyFloat (resolveDistanceStr r) = some dv →
        asciiOnly (resolveFareStr r) = true →
        pyFloat (resolveFareStr r) = none →
        importCsvStep g r = (g, some (resolveFareStr r))) := by
  refine ⟨?_, ?_, ?_, ?_, ?_⟩
  · intro pre r post hr
    exact importCsvFrom_skip r hr pre emptyStore post
  · intro g r fv h1 h2 hd hf
    have h0 : pyFloat (resolveDistanceStr r) = some (PyVal.fin 0) := by
      rw [hd]
      decide
    simp [importCsvStep, h1, h2, h0, hf, pyValQ]
  · intro g r dv h1 h2 hd hf
    have h0 : pyFloat (resolveFareStr r) = some (PyVal.fin 0) := by
      rw [hf]
      decide
    simp [importCsvStep, h1, h2, hd, h0, pyValQ]
  · intro g r h1 h2 _ hd
    simp [importCsvStep, h1, h2, hd]
  · intro g r dv h1 h2 hd _ hf
    simp [importCsvStep, h1, h2, hd, hf]

/-- Witness for C6 (amended): a blank-origin row is dropped; a missing
distance (fare 5) becomes a 0-distance edge; a missing fare (distance 7)
becomes a 0-fare edge; a non-numeric distance "abc" aborts with exactly
"abc"; a numeric distance with non-numeric fare "xyz" aborts with
exactly "xyz". -/
theorem c6_csv_row_handling_witness :
    resolveOrigin [("Origin", ""), ("Destination", "B")] = ""
    ∧ import_from_csv [[("Origin", ""), ("Destination", "B")]] = import_from_csv []
    ∧ importCsvStep emptyStore [("Origin", "A"), ("Destination", "B"), ("Fare_pesos", "5")]
        = (add_edge emptyStore "A" "B" 0 5, none)
    ∧ importCsvStep emptyStore [("Origin", "A"), ("Destination", "B"), ("Distance_km", "7")]
        = (add_edge emptyStore "A" "B" 7 0, none)
    ∧ importCsvStep emptyStore [("Origin", "A"), ("Destination", "B"), ("Distance_km", "abc")]
        = (emptyStore, some "abc")
    ∧ importCsvStep emptyStore
        [("Origin", "A"), ("Destination", "B"), ("Distance_km", "1"), ("Fare_pesos", "xyz")]
        = (emptyStore, some "xyz") :=
  ⟨by decide,
    c6_csv_row_handling.1 [] [("Origin", ""), ("Destination", "B")] [] (Or.inl (by decide)),
    c6_csv_row_handling.2.1 emptyStore _ 5 (by decide) (by decide) (by decide) (by decide),
    c6_csv_row_handling.2.2.1 emptyStore _ 7 (by decide) (by decide) (by decide) (by decide),
    c6_csv_row_handling.2.2.2.1 emptyStore _ (by decide) (by decide) (by decide) (by decide),
    c6_csv_row_handling.2.2.2.2 emptyStore _ (PyVal.fin 1) (by decide) (by decide) (by decide)
      (by decide) (by decide)⟩

/-- C7 counterexample: the header row written by `export_to_csv` is
`Origin, Destination, Distance_km, Fare_pesos`, not the four fields
`Origin, Destination, Distance, Fare` stated by the claim. -/
theorem c7_counterexample :
    (export_to_csv emptyStore).1 = ["Origin", "Destination", "Distance_km", "Fare_pesos"]
    ∧ (export_to_csv emptyStore).1 ≠ ["Origin", "Destination", "Distance", "Fare"] :=
  ⟨by decide, by decide⟩

/-! ### The deduplicating scan -/

/-- Rows kept by the first-wins dedup have keys outside the seen set. -/
theorem dedupByKey_notin_seen :
    ∀ (l : List Row) (seen : List (String × String)), ∀ r ∈ dedupByKey l seen, canonKey r ∉ seen
  | [], seen => by intro r hr; simp [dedupByKey] at hr
  | x :: rest, seen => by
      intro r hr
      rw [dedupByKey] at hr
      by_cases hx : canonKey x ∈ seen
      · rw [if_pos hx] at hr
        exact dedupByKey_notin_seen rest seen r hr
      · rw [if_neg hx] at hr
        rcases List.mem_cons.mp hr with h | h
        · subst h; exact hx
        · intro hmem
          exact dedupByKey_notin_seen rest (canonKey x :: seen) r h (List.mem_cons_of_mem _ hmem)

/-- Kept rows are rows of the input. -/
theorem dedupByKey_mem_orig :
    ∀ (l : List Row) (seen : List (String × String)), ∀ r ∈ dedupByKey l seen, r ∈ l
  | [], seen => by intro r hr; simp [dedupByKey] at hr
  | x :: rest, seen => by
      intro r hr
      rw [dedupByKey] at hr
      by_cases hx : canonKey x ∈ seen
      · rw [if_pos hx] at hr
        exact List.mem_cons_of_mem _ (dedupByKey_mem_orig rest seen r hr)
      · rw [if_neg hx] at hr
        rcases List.mem_cons.mp hr with h | h
        · exact h ▸ List.mem_cons_self _ _
        · exact List.mem_cons_of_mem _ (dedupByKey_mem_orig rest _ r h)

/-- After dedup, the unordered keys are pairwise distinct. -/
theorem dedupByKey_keys_nodup :
    ∀ (l : List Row) (seen : List (String × String)), ((dedupByKey l seen).map canonKey).Nodup
  | [], seen => by simp [dedupByKey]
  | x :: rest, seen => by
      rw [dedupByKey]
      by_cases hx : canonKey x ∈ seen
      · rw [if_pos hx]
        exact dedupByKey_keys_nodup rest seen
      · rw [if_neg hx]
        simp only [List.map_cons, List.nodup_cons]
        refine ⟨?_, dedupByKey_keys_nodup rest _⟩
        intro hmem
        obtain ⟨r, hr, hk⟩ := List.mem_map.mp hmem
        exact dedupByKey_notin_seen rest _ r hr (hk ▸ List.mem_cons_self _ _)

/-- A key survives the dedup iff it occurs in the input and is unseen. -/
theorem dedupByKey_mem_keys :
    ∀ (l : List Row) (seen : List (String × String)) (k : String × String),
      k ∈ (dedupByKey l seen).map canonKey ↔ (k ∈ l.map canonKey ∧ k ∉ seen)
  | [], seen, k => by simp [dedupByKey]
  | x :: rest, seen, k => by
      rw [dedupByKey]
      by_cases hx : canonKey x ∈ seen
      · rw [if_pos hx, dedupByKey_mem_keys rest seen k]
        simp only [List.map_cons, List.mem_cons]
        constructor
        · rintro ⟨h1, h2⟩
          exact ⟨Or.inr h1, h2⟩
        · rintro ⟨h1 | h1, h2⟩
          · exact absurd (h1 ▸ hx) h2
          · exact ⟨h1, h2⟩
      · rw [if_neg hx]
        simp only [List.map_cons, List.mem_cons]
        rw [dedupByKey_mem_keys rest (canonKey x :: seen) k]
        constructor
        · rintro (h | ⟨h1, h2⟩)
          · exact ⟨Or.inl h, h ▸ hx⟩
          · exact ⟨Or.inr h1, fun hs => h2 (List.mem_cons_of_mem _ hs)⟩
        · rintro ⟨h1 | h1, h2⟩
          · exact Or.inl h1
          · by_cases hk : k = canonKey x
            · exact Or.inl hk
            · exact Or.inr ⟨h1, fun hs => (List.mem_cons.mp hs).elim hk h2⟩

/-- First-wins: each kept row is the first input row with its key. -/
theorem dedupByKey_first :
    ∀ (l : List Row) (seen : List (String × String)), ∀ r ∈ dedupByKey l seen,
      l.find? (fun x => canonKey x == canonKey r) = some r
  | [], seen => by intro r hr; simp [dedupByKey] at hr
  | x :: rest, seen => by
      intro r hr
      rw [dedupByKey] at hr
      by_cases hx : canonKey x ∈ seen
      · rw [if_pos hx] at hr
        have hne : canonKey x ≠ canonKey r := by
          intro he
          exact dedupByKey_notin_seen rest seen r hr (he ▸ hx)
        rw [List.find?_cons_of_neg _ (by simpa using hne)]
        exact dedupByKey_first rest seen r hr
      · rw [if_neg hx] at hr
        rcases List.mem_cons.mp hr with h | h
        · subst h
          rw [List.find?_cons_of_pos _ (by simp)]
        · have hne : canonKey x ≠ canonKey r := by
            intro he
            exact dedupByKey_notin_seen rest _ r h (he ▸ List.mem_cons_self _ _)
          rw [List.find?_cons_of_neg _ (by simpa using hne)]
          exact dedupByKey_first rest _ r h

/-- The dedup result only depends on the seen set through membership. -/
theorem dedupByKey_congr :
    ∀ (l : List Row) (s1 s2 : List (String × String)),
      (∀ k, k ∈ s1 ↔ k ∈ s2) → dedupByKey l s1 = dedupByKey l s2
  | [], _, _, _ => rfl
  | x :: rest, s1, s2, h => by
      rw [dedupByKey, dedupByKey]
      by_cases hx : canonKey x ∈ s1
      · rw [if_pos hx, if_pos ((h _).mp hx)]
        exact dedupByKey_congr rest s1 s2 h
      · rw [if_neg hx, if_neg (fun hs => hx ((h _).mpr hs))]
        rw [dedupByKey_congr rest (canonKey x :: s1) (canonKey x :: s2)
          (by intro k; simp only [List.mem_cons]; rw [h k])]

/-- Splitting the dedup across an append: the tail sees exactly the keys
it would see after processing the head. -/
theorem dedupByKey_append :
    ∀ (l1 l2 : List Row) (seen s2 : List (String × String)),
      (∀ k, k ∈ s2 ↔ (k ∈ (dedupByKey l1 seen).map canonKey ∨ k ∈ seen)) →
      dedupByKey (l1 ++ l2) seen = dedupByKey l1 seen ++ dedupByKey l2 s2
  | [], l2, seen, s2, h => by
      simp only [dedupByKey, List.nil_append]
      exact dedupByKey_congr l2 seen s2 (fun k => by
        have := h k
        simp only [dedupByKey, List.map_nil, List.not_mem_nil, false_or] at this
        exact this.symm)
  | x :: l1, l2, seen, s2, h => by
      simp only [List.cons_append, dedupByKey]
      by_cases hx : canonKey x ∈ seen
      · rw [if_pos hx, if_pos hx] at *
        refine dedupByKey_append l1 l2 seen s2 (fun k => ?_)
        have := h k
        rwa [dedupByKey, if_pos hx] at this
      · rw [if_neg hx, if_neg hx]
        rw [List.cons_append]
        refine congrArg (List.cons x) ?_
        refine dedupByKey_append l1 l2 (canonKey x :: seen) s2 (fun k => ?_)
        have := h k
        rw [dedupByKey, if_neg hx] at this
        simp only [List.map_cons, List.mem_cons] at this ⊢
        rw [this]
        tauto

/-- The rows kept from one node's adjacency list are the generic dedup of
that node's scan rows. -/
theorem dedupScanNode_rows (u : String) :
    ∀ (es : List Adj) (seen : List (String × String)),
      (dedupScanNode u es seen).1
        = dedupByKey (es.map (fun e => (u, e.1, e.2.1, e.2.2))) seen
  | [], seen => rfl
  | (w, d, f) :: rest, seen => by
      rw [dedupScanNode]
      simp only [List.map_cons, dedupByKey]
      have hk : canonKey (u, w, d, f) = sortPair u w := rfl
      by_cases hx : sortPair u w ∈ seen
      · rw [if_pos hx, hk, if_pos hx]
        exact dedupScanNode_rows u rest seen
      · rw [if_neg hx, hk, if_neg hx]
        simp only []
        rw [dedupScanNode_rows u rest (sortPair u w :: seen)]

/-- The seen set produced by one node's scan: the old keys plus the keys
of the rows just written. -/
theorem dedupScanNode_seen (u : String) :
    ∀ (es : List Adj) (seen : List (String × String)) (k : String × String),
      k ∈ (dedupScanNode u es seen).2
        ↔ (k ∈ (dedupScanNode u es seen).1.map canonKey ∨ k ∈ seen)
  | [], seen, k => by simp [dedupScanNode]
  | (w, d, f) :: rest, seen, k => by
      rw [dedupScanNode]
      by_cases hx : sortPair u w ∈ seen
      · rw [if_pos hx]
        exact dedupScanNode_seen u rest seen k
      · rw [if_neg hx]
        simp only [List.map_cons, List.mem_cons]
        rw [dedupScanNode_seen u rest (sortPair u w :: seen) k]
        have hk : canonKey (u, w, d, f) = sortPair u w := rfl
        simp only [List.mem_cons, hk]
        tauto

/-- The export scan is the generic first-wins dedup of the flat scan. -/
theorem dedupScan_eq (g : Store) :
    ∀ (ns : List String) (seen : List (String × String)),
      dedupScan g ns seen
        = dedupByKey
            ((ns.map (fun u => (get_neighbors g u).map (fun e => (u, e.1, e.2.1, e.2.2)))).flatten)
            seen
  | [], seen => rfl
  | u :: us, seen => by
      rw [dedupScan]
      simp only [List.map_cons, List.flatten_cons]
      rw [dedupByKey_append ((get_neighbors g u).map (fun e => (u, e.1, e.2.1, e.2.2))) _ seen
        (dedupScanNode u (get_neighbors g u) seen).2
        (fun k => by
          rw [dedupScanNode_seen u (get_neighbors g u) seen k,
            dedupScanNode_rows u (get_neighbors g u) seen])]
      rw [dedupScanNode_rows u (get_neighbors g u) seen,
        dedupScan_eq g us (dedupScanNode u (get_neighbors g u) seen).2]

/-- `dedupRows` as a generic dedup of the flat scan. -/
theorem dedupRows_eq (g : Store) : dedupRows g = dedupByKey (scanRows g) [] :=
  dedupScan_eq g g.nodes []

/-- Keys of the flat scan: unordered pairs realised by some adjacency
entry of a listed node. -/
theorem scanRows_mem_keys (g : Store) (k : String × String) :
    k ∈ (scanRows g).map canonKey
      ↔ ∃ u ∈ g.nodes, ∃ e ∈ get_neighbors g u, sortPair u e.1 = k := by
  constructor
  · intro hk
    obtain ⟨r, hr, rfl⟩ := List.mem_map.mp hk
    simp only [scanRows, List.mem_flatten, List.mem_map] at hr
    obtain ⟨l, ⟨u, hu, rfl⟩, hrl⟩ := hr
    obtain ⟨e, he, rfl⟩ := List.mem_map.mp hrl
    exact ⟨u, hu, e, he, rfl⟩
  · rintro ⟨u, hu, e, he, rfl⟩
    refine List.mem_map.mpr ⟨(u, e.1, e.2.1, e.2.2), ?_, rfl⟩
    simp only [scanRows, List.mem_flatten, List.mem_map]
    exact ⟨(get_neighbors g u).map (fun e => (u, e.1, e.2.1, e.2.2)), ⟨u, hu, rfl⟩,
      List.mem_map.mpr ⟨e, he, rfl⟩⟩

/-- C7 (amended): `export_to_csv` writes exactly a header row with the
four fields Origin, Destination, Distance_km, Fare_pesos, followed by
exactly one data row per deduplicated undirected edge: the data rows are
the first-wins dedup of the adjacency scan by unordered node-pair key,
their keys are pairwise distinct, a key appears iff some adjacency entry
realises it, and each written row is the first scan row with its key. -/
theorem c7_csv_export_shape (g : Store) :
    (export_to_csv g).1 = ["Origin", "Destination", "Distance_km", "Fare_pesos"]
    ∧ (export_to_csv g).2 = dedupByKey (scanRows g) []
    ∧ ((export_to_csv g).2.map canonKey).Nodup
    ∧ (∀ k, k ∈ (export_to_csv g).2.map canonKey
        ↔ ∃ u ∈ g.nodes, ∃ e ∈ get_neighbors g u, sortPair u e.1 = k)
    ∧ (∀ r ∈ (export_to_csv g).2,
        (scanRows g).find? (fun x => canonKey x == canonKey r) = some r) := by
  have h2 : (export_to_csv g).2 = dedupByKey (scanRows g) [] := dedupRows_eq g
  refine ⟨rfl, h2, ?_, ?_, ?_⟩
  · rw [h2]
    exact dedupByKey_keys_nodup _ _
  · intro k
    rw [h2, dedupByKey_mem_keys, ← scanRows_mem_keys g k]
    simp
  · intro r hr
    rw [h2] at hr
    exact dedupByKey_first _ _ r hr

/-! ### Effect of the mutations on the adjacency -/

/-- Appending a fresh empty binding changes no lookup. -/
theorem lookupEdges_append_nil :
    ∀ (es : List (String × List Adj)) (n x : String),
      lookupEdges (es ++ [(n, [])]) x = lookupEdges es x
  | [], n, x => by
      simp only [List.nil_append, lookupEdges]
      split <;> rfl
  | (k, v) :: rest, n, x => by
      simp only [List.cons_append, lookupEdges]
      split
      · rfl
      · exact lookupEdges_append_nil rest n x

/-- `add_node` never changes any adjacency list. -/
theorem get_neighbors_add_node (g : Store) (n : String) (c : Option (ℚ × ℚ)) (x : String) :
    get_neighbors (add_node g n c) x = get_neighbors g x := by
  show lookupEdges (addNodeEdges g.edges n) x = lookupEdges g.edges x
  unfold addNodeEdges
  split
  · rfl
  · exact lookupEdges_append_nil g.edges n x

/-- `add_node` leaves the dict keys unchanged or adds the new one. -/
theorem addNodeEdges_any_self (es : List (String × List Adj)) (n : String) :
    (addNodeEdges es n).any (fun p => p.1 = n) = true := by
  unfold addNodeEdges
  split
  · assumption
  · simp

theorem addNodeEdges_any_mono (es : List (String × List Adj)) (m n : String)
    (h : es.any (fun p => p.1 = n) = true) :
    (addNodeEdges es m).any (fun p => p.1 = n) = true := by
  unfold addNodeEdges
  split
  · exact h
  · simp only [List.any_append, h, Bool.true_or]

/-- `appendEdge` changes values only, never the keys. -/
theorem appendEdge_any :
    ∀ (es : List (String × List Adj)) (k : String) (e : Adj) (n : String),
      (appendEdge es k e).any (fun p => p.1 = n) = es.any (fun p => p.1 = n)
  | [], _, _, _ => rfl
  | (k0, l) :: rest, k, e, n => by
      rw [appendEdge]
      split
      · simp
      · simp only [List.any_cons, appendEdge_any rest k e n]

/-- Lookup after `appendEdge`: the entry lands at the end of the list
bound to the (existing) key, every other lookup is unchanged. -/
theorem lookupEdges_appendEdge :
    ∀ (es : List (String × List Adj)) (k : String) (e : Adj) (x : String),
      lookupEdges (appendEdge es k e) x
        = if x = k ∧ es.any (fun p => p.1 = k) = true
            then lookupEdges es x ++ [e] else lookupEdges es x
  | [], k, e, x => by simp [appendEdge, lookupEdges]
  | (k0, l) :: rest, k, e, x => by
      rw [appendEdge]
      by_cases hk0 : k0 = k
      · rw [if_pos hk0]
        subst hk0
        rw [lookupEdges]
        by_cases hx : k0 = x
        · rw [if_pos hx, if_pos ⟨hx.symm, by simp⟩, lookupEdges, if_pos hx]
        · rw [if_neg hx, if_neg (fun hc => hx hc.1.symm), lookupEdges, if_neg hx]
      · rw [if_neg hk0]
        rw [lookupEdges]
        by_cases hx : k0 = x
        · rw [if_pos hx, if_neg (fun hc => hk0 (hx.trans hc.1)), lookupEdges, if_pos hx]
        · rw [if_neg hx, lookupEdges_appendEdge rest k e x]
          have hl : lookupEdges ((k0, l) :: rest) x = lookupEdges rest x := by
            rw [lookupEdges, if_neg hx]
          have ha : ((k0, l) :: rest).any (fun p => p.1 = k)
              = rest.any (fun p => p.1 = k) := by
            simp [hk0]
          rw [hl, ha]

/-- Adjacency-dict level version of `get_neighbors_add_node`. -/
theorem lookupEdges_addNodeEdges (es : List (String × List Adj)) (n x : String) :
    lookupEdges (addNodeEdges es n) x = lookupEdges es x := by
  unfold addNodeEdges
  split
  · rfl
  · exact lookupEdges_append_nil es n x

/-- The two symmetric entries appended by `add_edge`, as seen from every
node: entry `(b, d, f)` lands at the end of `a`'s list, then `(a, d, f)`
at the end of `b`'s list. -/
theorem get_neighbors_add_edge (g : Store) (a b : String) (d f : ℚ) (x : String) :
    get_neighbors (add_edge g a b d f) x
      = (get_neighbors g x ++ (if x = a then [(b, d, f)] else []))
        ++ (if x = b then [(a, d, f)] else []) := by
  have hka : (addNodeEdges (addNodeEdges g.edges a) b).any (fun p => p.1 = a) = true :=
    addNodeEdges_any_mono _ b a (addNodeEdges_any_self g.edges a)
  have hkb : (addNodeEdges (addNodeEdges g.edges a) b).any (fun p => p.1 = b) = true :=
    addNodeEdges_any_self _ b
  show lookupEdges
      (appendEdge (appendEdge (addNodeEdges (addNodeEdges g.edges a) b) a (b, d, f)) b (a, d, f))
      x = _
  rw [lookupEdges_appendEdge, appendEdge_any, lookupEdges_appendEdge, hka, hkb]
  have hNN : lookupEdges (addNodeEdges (addNodeEdges g.edges a) b) x = get_neighbors g x := by
    rw [lookupEdges_addNodeEdges, lookupEdges_addNodeEdges]; rfl
  simp only [and_true, hNN]
  by_cases hxa : x = a
  · subst hxa
    by_cases hab : x = b
    · subst hab
      simp
    · simp [hab]
  · by_cases hxb : x = b
    · subst hxb
      simp [hxa]
    · simp [hxa, hxb]

/-- The empty store is symmetric. -/
theorem symAdj_empty : SymAdj emptyStore := by
  intro u v d f
  rfl

/-- `add_node` preserves adjacency symmetry. -/
theorem symAdj_add_node {g : Store} (n : String) (c : Option (ℚ × ℚ)) (h : SymAdj g) :
    SymAdj (add_node g n c) := by
  intro u v d f
  rw [get_neighbors_add_node, get_neighbors_add_node]
  exact h u v d f

/-- `add_edge` preserves adjacency symmetry. -/
theorem symAdj_add_edge {g : Store} (a b : String) (dd ff : ℚ) (h : SymAdj g) :
    SymAdj (add_edge g a b dd ff) := by
  intro u v d f
  rw [get_neighbors_add_edge, get_neighbors_add_edge]
  simp only [List.count_append]
  rw [h u v d f]
  have hAD : (if u = a then [((b : String), dd, ff)] else []).count (v, d, f)
      = (if v = b then [((a : String), dd, ff)] else []).count (u, d, f) := by
    by_cases hua : u = a <;> by_cases hvb : v = b <;>
      simp [hua, hvb, List.count_cons, List.count_nil, Prod.ext_iff]
  have hBC : (if u = b then [((a : String), dd, ff)] else []).count (v, d, f)
      = (if v = a then [((b : String), dd, ff)] else []).count (u, d, f) := by
    by_cases hub : u = b <;> by_cases hva : v = a <;>
      simp [hub, hva, List.count_cons, List.count_nil, Prod.ext_iff]
  omega

/-- One CSV import step either keeps the store or performs one `add_edge`. -/
theorem importCsvStep_cases (g : Store) (r : RawRow) :
    (importCsvStep g r).1 = g
    ∨ ∃ o dst dd ff, (importCsvStep g r).1 = add_edge g o dst dd ff := by
  unfold importCsvStep
  by_cases h : resolveOrigin r ≠ "" ∧ resolveDestination r ≠ ""
  · rw [if_pos h]
    rcases hp : pyFloat (resolveDistanceStr r) with _ | dd
    · left; rfl
    · rcases hq : pyFloat (resolveFareStr r) with _ | ff
      · left; rfl
      · right; exact ⟨_, _, _, _, rfl⟩
  · rw [if_neg h]
    left; rfl

/-- The CSV import fold preserves adjacency symmetry. -/
theorem symAdj_importCsvFrom :
    ∀ (rows : List RawRow) (g : Store), SymAdj g → SymAdj (importCsvFrom g rows).1
  | [], _, h => h
  | r :: rest, g, h => by
      rw [importCsvFrom]
      have hg2 : SymAdj (importCsvStep g r).1 := by
        rcases importCsvStep_cases g r with hc | ⟨o, dst, dd, ff, hc⟩
        · rw [hc]; exact h
        · rw [hc]; exact symAdj_add_edge o dst dd ff h
      rcases hs : importCsvStep g r with ⟨g2, e⟩
      rw [hs] at hg2
      rcases e with _ | e
      · exact symAdj_importCsvFrom rest g2 hg2
      · exact hg2

/-- Stores rebuilt from a row list by `add_edge` are symmetric. -/
theorem symAdj_buildStore_aux :
    ∀ (rows : List Row) (g : Store), SymAdj g →
      SymAdj (rows.foldl (fun acc r => add_edge acc r.1 r.2.1 r.2.2.1 r.2.2.2) g)
  | [], _, h => h
  | r :: rest, _, h =>
      symAdj_buildStore_aux rest _ (symAdj_add_edge r.1 r.2.1 r.2.2.1 r.2.2.2 h)

theorem symAdj_buildStore (rows : List Row) : SymAdj (buildStore rows) :=
  symAdj_buildStore_aux rows emptyStore symAdj_empty

/-- Adjacency symmetry holds in every reachable store. -/
theorem symAdj_reachable (g : Store) (h : Reachable g) : SymAdj g := by
  induction h with
  | empty => exact symAdj_empty
  | addNode n c _ ih => exact symAdj_add_node n c ih
  | addEdge u v d f _ ih => exact symAdj_add_edge u v d f ih
  | importCsv rows => exact symAdj_importCsvFrom rows emptyStore symAdj_empty
  | importJson file => exact symAdj_buildStore _

/-- C2: adjacency symmetry is an invariant preserved by every mutation:
in every store reachable from the empty store through `add_node`,
`add_edge`, `import_from_csv` and `import_from_json`, the multiset of
`(v, d, f)` entries stored under `u` equals, entry for entry, the
multiset of `(u, d, f)` entries stored under `v`. -/
theorem c2_adjacency_symmetry (g : Store) (h : Reachable g) : SymAdj g :=
  symAdj_reachable g h

/-- Witness for C2 at the seed network and the Tagoloan–Gusa edge. -/
theorem c2_adjacency_symmetry_witness :
    Reachable create_transportation_network
    ∧ (get_neighbors create_transportation_network "Tagoloan").count ("Gusa", 22.9, 30)
      = (get_neighbors create_transportation_network "Gusa").count ("Tagoloan", 22.9, 30) :=
  ⟨reachable_seed,
    c2_adjacency_symmetry create_transportation_network reachable_seed "Tagoloan" "Gusa" 22.9 30⟩

/-- A store with only empty adjacency lists produces no scan rows. -/
theorem dedupScan_nil (g : Store) :
    ∀ (ns : List String) (seen : List (String × String)),
      (∀ u ∈ ns, get_neighbors g u = []) → dedupScan g ns seen = []
  | [], _, _ => rfl
  | u :: us, seen, h => by
      rw [dedupScan, h u (List.mem_cons_self _ _)]
      simp only [dedupScanNode, List.nil_append]
      exact dedupScan_nil g us seen (fun x hx => h x (List.mem_cons_of_mem _ hx))

/-- C10: `get_network_statistics` returns the empty mapping (none of the
documented fields) exactly for an empty node set; for a non-empty node
set it returns the full record, whose min/max/avg statistics all default
to 0 when the graph has no edges. -/
theorem c10_network_statistics (g : Store) :
    (g.nodes = [] → get_network_statistics g = none)
    ∧ (g.nodes ≠ [] → ∃ s, get_network_statistics g = some s
        ∧ s.total_nodes = g.nodes.length
        ∧ s.total_edges = (dedupRows g).length
        ∧ s.nodesSorted = sortStrings g.nodes
        ∧ s.connectivity = g.nodes.map (fun n => (n, (get_neighbors g n).length))
        ∧ ((∀ u ∈ g.nodes, get_neighbors g u = []) →
            s.distance_stats = (0, 0, 0, 0) ∧ s.fare_stats = (0, 0, 0, 0)
            ∧ s.efficiency_stats = (0, 0, 0))) := by
  constructor
  · intro h
    rw [get_network_statistics, if_pos h]
  · intro h
    rw [get_network_statistics, if_neg h]
    refine ⟨_, rfl, rfl, by simp, rfl, rfl, ?_⟩
    intro hE
    have h0 : dedupRows g = [] := dedupScan_nil g g.nodes [] hE
    refine ⟨?_, ?_, ?_⟩ <;> simp [h0, listMinD, listMaxD, listAvgD]

/-- Witness for C10 at the empty store and a one-node, zero-edge store. -/
theorem c10_network_statistics_witness :
    get_network_statistics emptyStore = none
    ∧ ∃ s, get_network_statistics (add_node emptyStore "A" none) = some s
        ∧ s.total_nodes = (add_node emptyStore "A" none).nodes.length
        ∧ s.total_edges = (dedupRows (add_node emptyStore "A" none)).length
        ∧ s.nodesSorted = sortStrings (add_node emptyStore "A" none).nodes
        ∧ s.connectivity = (add_node emptyStore "A" none).nodes.map
            (fun n => (n, (get_neighbors (add_node emptyStore "A" none) n).length))
        ∧ ((∀ u ∈ (add_node emptyStore "A" none).nodes,
              get_neighbors (add_node emptyStore "A" none) u = []) →
            s.distance_stats = (0, 0, 0, 0) ∧ s.fare_stats = (0, 0, 0, 0)
            ∧ s.efficiency_stats = (0, 0, 0)) :=
  ⟨(c10_network_statistics emptyStore).1 rfl,
    (c10_network_statistics (add_node emptyStore "A" none)).2 (by decide)⟩

/-! ### Strings, unordered pairs, and the rebuilt store -/

theorem charsLtB_asymm :
    ∀ cs ds : List Char, charsLtB cs ds = true → charsLtB ds cs = false
  | [], [] => by simp [charsLtB]
  | [], _ :: _ => by simp [charsLtB]
  | _ :: _, [] => by simp [charsLtB]
  | c :: cs, d :: ds => by
      intro h
      rw [charsLtB] at h ⊢
      by_cases h1 : c.toNat < d.toNat
      · rw [if_neg (Nat.lt_asymm h1), if_pos h1]
      · rw [if_neg h1] at h
        by_cases h2 : d.toNat < c.toNat
        · rw [if_pos h2] at h
          exact absurd h (by simp)
        · rw [if_neg h2] at h
          rw [if_neg h2, if_neg h1]
          exact charsLtB_asymm cs ds h

theorem charsLtB_antisymm :
    ∀ cs ds : List Char, charsLtB cs ds = false → charsLtB ds cs = false → cs = ds
  | [], [] => fun _ _ => rfl
  | [], _ :: _ => by simp [charsLtB]
  | _ :: _, [] => by
      intro _ h
      simp [charsLtB] at h
  | c :: cs, d :: ds => by
      intro h1 h2
      rw [charsLtB] at h1 h2
      by_cases hcd : c.toNat < d.toNat
      · rw [if_pos hcd] at h1
        exact absurd h1 (by simp)
      · rw [if_neg hcd] at h1
        by_cases hdc : d.toNat < c.toNat
        · rw [if_pos hdc] at h2
          exact absurd h2 (by simp)
        · rw [if_neg hdc] at h1
          have hc : c = d :=
            Char.eq_of_val_eq (UInt32.ext
              (Nat.le_antisymm (Nat.le_of_not_lt hdc) (Nat.le_of_not_lt hcd)))
          subst hc
          rw [if_neg hcd, if_neg hcd] at h2
          exact congrArg (List.cons c) (charsLtB_antisymm cs ds h1 h2)

theorem strLtB_asymm (a b : String) (h : strLtB a b = true) : strLtB b a = false :=
  charsLtB_asymm a.data b.data h

theorem strLtB_antisymm (a b : String) (h1 : strLtB a b = false) (h2 : strLtB b a = false) :
    a = b := by
  cases a with
  | mk da =>
    cases b with
    | mk db =>
      exact congrArg String.mk (charsLtB_antisymm da db h1 h2)

/-- `sorted([a, b])` does not depend on the order of the two inputs. -/
theorem sortPair_comm (a b : String) : sortPair a b = sortPair b a := by
  unfold sortPair
  by_cases h1 : strLtB b a = true
  · rw [if_pos h1, if_neg (by rw [strLtB_asymm b a h1]; simp)]
  · have h1f : strLtB b a = false := Bool.not_eq_true _ ▸ (by simpa using h1)
    rw [if_neg h1]
    by_cases h2 : strLtB a b = true
    · rw [if_pos h2]
    · have h2f : strLtB a b = false := Bool.not_eq_true _ ▸ (by simpa using h2)
      rw [if_neg h2]
      rw [strLtB_antisymm a b h2f h1f]

theorem mem_insertNew (n x : String) (l : List String) :
    x ∈ insertNew n l ↔ x ∈ l ∨ x = n := by
  unfold insertNew
  split
  · constructor
    · exact Or.inl
    · rintro (h | rfl)
      · exact h
      · assumption
  · simp [List.mem_append]

theorem add_edge_nodes (g : Store) (a b : String) (d f : ℚ) (x : String) :
    x ∈ (add_edge g a b d f).nodes ↔ x ∈ g.nodes ∨ x = a ∨ x = b := by
  show x ∈ insertNew b (insertNew a g.nodes) ↔ _
  rw [mem_insertNew, mem_insertNew]
  tauto

theorem mem_get_neighbors_add_edge (g : Store) (a b : String) (d f : ℚ) (x : String) (e : Adj) :
    e ∈ get_neighbors (add_edge g a b d f) x
      ↔ e ∈ get_neighbors g x ∨ (x = a ∧ e = (b, d, f)) ∨ (x = b ∧ e = (a, d, f)) := by
  rw [get_neighbors_add_edge]
  simp only [List.mem_append]
  by_cases hxa : x = a <;> by_cases hxb : x = b <;> simp [hxa, hxb] <;> tauto

/-- Node membership for a store rebuilt by the `add_edge` fold. -/
theorem buildStore_fold_nodes :
    ∀ (rows : List Row) (g0 : Store) (x : String),
      x ∈ ((rows.foldl (fun acc r => add_edge acc r.1 r.2.1 r.2.2.1 r.2.2.2) g0).nodes)
        ↔ x ∈ g0.nodes ∨ ∃ r ∈ rows, x = r.1 ∨ x = r.2.1
  | [], g0, x => by simp
  | r :: rest, g0, x => by
      rw [List.foldl_cons, buildStore_fold_nodes rest _ x, add_edge_nodes]
      simp only [List.mem_cons]
      constructor
      · rintro ((h | h | h) | ⟨r1, hr1, hc⟩)
        · exact Or.inl h
        · exact Or.inr ⟨r, Or.inl rfl, Or.inl h⟩
        · exact Or.inr ⟨r, Or.inl rfl, Or.inr h⟩
        · exact Or.inr ⟨r1, Or.inr hr1, hc⟩
      · rintro (h | ⟨r1, (rfl | hr1), hc⟩)
        · exact Or.inl (Or.inl h)
        · exact Or.inl (Or.inr hc)
        · exact Or.inr ⟨r1, hr1, hc⟩

/-- Adjacency membership for a store rebuilt by the `add_edge` fold. -/
theorem buildStore_fold_neighbors :
    ∀ (rows : List Row) (g0 : Store) (x : String) (e : Adj),
      e ∈ get_neighbors (rows.foldl (fun acc r => add_edge acc r.1 r.2.1 r.2.2.1 r.2.2.2) g0) x
        ↔ e ∈ get_neighbors g0 x
          ∨ ∃ r ∈ rows, (x = r.1 ∧ e = (r.2.1, r.2.2.1, r.2.2.2))
              ∨ (x = r.2.1 ∧ e = (r.1, r.2.2.1, r.2.2.2))
  | [], g0, x, e => by simp
  | r :: rest, g0, x, e => by
      rw [List.foldl_cons, buildStore_fold_neighbors rest _ x e, mem_get_neighbors_add_edge]
      simp only [List.mem_cons]
      constructor
      · rintro ((h | h | h) | ⟨r1, hr1, hc⟩)
        · exact Or.inl h
        · exact Or.inr ⟨r, Or.inl rfl, Or.inl h⟩
        · exact Or.inr ⟨r, Or.inl rfl, Or.inr h⟩
        · exact Or.inr ⟨r1, Or.inr hr1, hc⟩
      · rintro (h | ⟨r1, (rfl | hr1), hc⟩)
        · exact Or.inl (Or.inl h)
        · exact Or.inl (Or.inr hc)
        · exact Or.inr ⟨r1, hr1, hc⟩

theorem buildStore_nodes (rows : List Row) (x : String) :
    x ∈ (buildStore rows).nodes ↔ ∃ r ∈ rows, x = r.1 ∨ x = r.2.1 := by
  rw [buildStore, buildStore_fold_nodes]
  simp [emptyStore]

theorem buildStore_neighbors (rows : List Row) (x : String) (e : Adj) :
    e ∈ get_neighbors (buildStore rows) x
      ↔ ∃ r ∈ rows, (x = r.1 ∧ e = (r.2.1, r.2.2.1, r.2.2.2))
          ∨ (x = r.2.1 ∧ e = (r.1, r.2.2.1, r.2.2.2)) := by
  rw [buildStore, buildStore_fold_neighbors]
  have : get_neighbors emptyStore x = [] := rfl
  simp [this]

/-- Row-level membership in the flat scan. -/
theorem scanRows_mem (g : Store) (r : Row) :
    r ∈ scanRows g
      ↔ ∃ u ∈ g.nodes, ∃ e ∈ get_neighbors g u, r = (u, e.1, e.2.1, e.2.2) := by
  simp only [scanRows, List.mem_flatten, List.mem_map]
  constructor
  · rintro ⟨l, ⟨u, hu, rfl⟩, hrl⟩
    obtain ⟨e, he, rfl⟩ := List.mem_map.mp hrl
    exact ⟨u, hu, e, he, rfl⟩
  · rintro ⟨u, hu, e, he, rfl⟩
    exact ⟨(get_neighbors g u).map (fun e => (u, e.1, e.2.1, e.2.2)), ⟨u, hu, rfl⟩,
      List.mem_map.mpr ⟨e, he, rfl⟩⟩

/-- In a list with pairwise-distinct keys, the key determines the row. -/
theorem keyed_unique :
    ∀ (l : List Row), (l.map canonKey).Nodup →
      ∀ r0 ∈ l, ∀ r1 ∈ l, canonKey r0 = canonKey r1 → r0 = r1
  | [], _, r0, h0, _, _, _ => absurd h0 (List.not_mem_nil r0)
  | x :: rest, hnd, r0, h0, r1, h1, hk => by
      simp only [List.map_cons, List.nodup_cons] at hnd
      rcases List.mem_cons.mp h0 with h0e | h0m
      · rcases List.mem_cons.mp h1 with h1e | h1m
        · rw [h0e, h1e]
        · have hm : canonKey x ∈ List.map canonKey rest :=
            List.mem_map.mpr ⟨r1, h1m, hk.symm.trans (congrArg canonKey h0e)⟩
          exact absurd hm hnd.1
      · rcases List.mem_cons.mp h1 with h1e | h1m
        · have hm : canonKey x ∈ List.map canonKey rest :=
            List.mem_map.mpr ⟨r0, h0m, hk.trans (congrArg canonKey h1e)⟩
          exact absurd hm hnd.1
        · exact keyed_unique rest hnd.2 r0 h0m r1 h1m hk

/-- Rebuilding a store from rows with pairwise-distinct unordered keys
and rescanning it reproduces exactly those rows, up to order and
orientation. -/
theorem dedup_buildStore_perm (R : List Row) (hnd : (R.map canonKey).Nodup) :
    ((dedupRows (buildStore R)).map canonRow).Perm (R.map canonRow) := by
  have hkeyrow : ∀ l : List Row, (l.map canonKey).Nodup → (l.map canonRow).Nodup := by
    intro l h
    refine List.Nodup.of_map Prod.fst ?_
    have hm : (l.map canonRow).map Prod.fst = l.map canonKey := by
      rw [List.map_map]; rfl
    rw [hm]; exact h
  have hndB : ((dedupRows (buildStore R)).map canonKey).Nodup := by
    rw [dedupRows_eq]; exact dedupByKey_keys_nodup _ _
  rw [List.perm_ext_iff_of_nodup (hkeyrow _ hndB) (hkeyrow _ hnd)]
  intro x
  constructor
  · intro hx
    obtain ⟨ρ, hρ, rfl⟩ := List.mem_map.mp hx
    have hρs : ρ ∈ scanRows (buildStore R) := by
      have hmem := (dedupRows_eq (buildStore R)) ▸ hρ
      exact dedupByKey_mem_orig _ _ ρ hmem
    obtain ⟨u, hu, e, he, rfl⟩ := (scanRows_mem _ ρ).mp hρs
    obtain ⟨r, hr, hcase⟩ := (buildStore_neighbors R u e).mp he
    refine List.mem_map.mpr ⟨r, hr, ?_⟩
    rcases hcase with ⟨he1, he2⟩ | ⟨he1, he2⟩ <;> rw [he1, he2] <;>
      simp [canonRow, canonKey, sortPair_comm]
  · intro hx
    obtain ⟨r, hr, rfl⟩ := List.mem_map.mp hx
    have hkey : canonKey r ∈ (dedupRows (buildStore R)).map canonKey := by
      rw [dedupRows_eq, dedupByKey_mem_keys]
      refine ⟨?_, List.not_mem_nil _⟩
      rw [scanRows_mem_keys]
      exact ⟨r.1, (buildStore_nodes R r.1).mpr ⟨r, hr, Or.inl rfl⟩,
        (r.2.1, r.2.2.1, r.2.2.2),
        (buildStore_neighbors R r.1 _).mpr ⟨r, hr, Or.inl ⟨rfl, rfl⟩⟩, rfl⟩
    obtain ⟨ρ, hρ, hk⟩ := List.mem_map.mp hkey
    have hρs : ρ ∈ scanRows (buildStore R) := by
      have hmem := (dedupRows_eq (buildStore R)) ▸ hρ
      exact dedupByKey_mem_orig _ _ ρ hmem
    obtain ⟨u, hu, e, he, hre⟩ := (scanRows_mem _ ρ).mp hρs
    obtain ⟨r1, hr1, hcase⟩ := (buildStore_neighbors R u e).mp he
    have hcr : canonRow ρ = canonRow r1 := by
      rw [hre]
      rcases hcase with ⟨he1, he2⟩ | ⟨he1, he2⟩ <;> rw [he1, he2] <;>
        simp [canonRow, canonKey, sortPair_comm]
    have hk1 : canonKey r1 = canonKey r := by
      have h1 : canonKey ρ = canonKey r1 := congrArg Prod.fst hcr
      exact h1.symm.trans hk
    have hrr : r1 = r := keyed_unique R hnd r1 hr1 r hr hk1
    exact List.mem_map.mpr ⟨ρ, hρ, hcr.trans (by rw [hrr])⟩

/-- Alias resolution on a row of the exported CSV shape. -/
theorem resolve_encoded (o dst sd sf : String) :
    resolveOrigin [("Origin", o), ("Destination", dst), ("Distance_km", sd), ("Fare_pesos", sf)]
      = pyStrip o
    ∧ resolveDestination
        [("Origin", o), ("Destination", dst), ("Distance_km", sd), ("Fare_pesos", sf)]
      = pyStrip dst
    ∧ (sd ≠ "" → resolveDistanceStr
        [("Origin", o), ("Destination", dst), ("Distance_km", sd), ("Fare_pesos", sf)] = sd)
    ∧ (sf ≠ "" → resolveFareStr
        [("Origin", o), ("Destination", dst), ("Distance_km", sd), ("Fare_pesos", sf)] = sf) := by
  refine ⟨?_, ?_, ?_, ?_⟩
  · by_cases ho : o = "" <;>
      simp [resolveOrigin, resolveField, rowGet, List.find?, ho]
  · by_cases hd : dst = "" <;>
      simp [resolveDestination, resolveField, rowGet, List.find?, hd]
  · intro hsd
    simp [resolveDistanceStr, resolveField, rowGet, List.find?, hsd]
  · intro hsf
    simp [resolveFareStr, resolveField, rowGet, List.find?, hsf]

/-- One import step on a faithfully encoded row with a clean (non-blank,
whitespace-free) origin and destination performs exactly the `add_edge`
of the exported edge. -/
theorem importCsvStep_encoded (g : Store) (raw : RawRow) (r : Row)
    (henc : EncodesRow raw r)
    (hgood : pyStrip r.1 = r.1 ∧ r.1 ≠ "" ∧ pyStrip r.2.1 = r.2.1 ∧ r.2.1 ≠ "") :
    importCsvStep g raw = (add_edge g r.1 r.2.1 r.2.2.1 r.2.2.2, none) := by
  obtain ⟨sd, sf, rfl, hpd, hpf⟩ := henc
  have hnil : parseFloat "" = none := by decide
  have hsd : sd ≠ "" := by
    intro h
    rw [h, hnil] at hpd
    exact Option.noConfusion hpd
  have hsf : sf ≠ "" := by
    intro h
    rw [h, hnil] at hpf
    exact Option.noConfusion hpf
  obtain ⟨ho, hd, hds, hfs⟩ := resolve_encoded r.1 r.2.1 sd sf
  rw [importCsvStep, ho, hd, hds hsd, hfs hsf, hgood.1, hgood.2.2.1,
    parseFloat_pyFloat sd _ hpd, parseFloat_pyFloat sf _ hpf,
    if_pos ⟨hgood.2.1, hgood.2.2.2⟩]
  rfl

/-- Importing a faithfully encoded CSV file with clean node names rebuilds
exactly the exported edges, with no error. -/
theorem importCsvFrom_encoded (raws : List RawRow) (rows : List Row)
    (henc : Encodes raws rows)
    (hgood : ∀ r ∈ rows, pyStrip r.1 = r.1 ∧ r.1 ≠ "" ∧ pyStrip r.2.1 = r.2.1 ∧ r.2.1 ≠ "") :
    ∀ g0 : Store,
      importCsvFrom g0 raws
        = (rows.foldl (fun acc r => add_edge acc r.1 r.2.1 r.2.2.1 r.2.2.2) g0, none) := by
  induction henc with
  | nil => intro g0; rfl
  | cons h t ih =>
      intro g0
      rw [importCsvFrom, importCsvStep_encoded g0 _ _ h (hgood _ (List.mem_cons_self _ _)),
        List.foldl_cons]
      exact ih (fun r hr => hgood r (List.mem_cons_of_mem _ hr)) _

/-- C5 counterexample: on the graph with the single edge ("", "B", 1, 2),
the CSV round trip loses the edge — the row, faithfully encoding the
exported data, is skipped on import because its origin is blank — so the
deduplicated edge multisets of the round-tripped and the original graphs
differ. -/
theorem c5_counterexample :
    Encodes [[("Origin", ""), ("Destination", "B"), ("Distance_km", "1"), ("Fare_pesos", "2")]]
      (export_to_csv (add_edge emptyStore "" "B" 1 2)).2
    ∧ ¬ ((dedupRows (import_from_csv
          [[("Origin", ""), ("Destination", "B"), ("Distance_km", "1"), ("Fare_pesos", "2")]]).1).map
            canonRow).Perm
        ((dedupRows (add_edge emptyStore "" "B" 1 2)).map canonRow) := by
  constructor
  · have hexp : (export_to_csv (add_edge emptyStore "" "B" 1 2)).2 = [("", "B", (1 : ℚ), 2)] := by
      decide
    rw [hexp]
    exact List.Forall₂.cons ⟨"1", "2", rfl, by decide, by decide⟩ List.Forall₂.nil
  · intro hperm
    have h1 : (dedupRows (import_from_csv
        [[("Origin", ""), ("Destination", "B"), ("Distance_km", "1"), ("Fare_pesos", "2")]]).1).map
          canonRow = [] := by decide
    have h2 : (dedupRows (add_edge emptyStore "" "B" 1 2)).map canonRow
        = [(("", "B"), 1, 2)] := by decide
    rw [h1, h2] at hperm
    exact absurd hperm.length_eq (by decide)

/-- C5 (amended): for a graph whose deduplicated edges have non-blank,
whitespace-free endpoint names, importing any faithful textual encoding
of the exported CSV rows yields a graph with the same deduplicated edge
multiset (edges collapsed by unordered node pair, first occurrence wins,
weights exact under exact numeric serialization); the JSON round trip
preserves the deduplicated edge multiset for every graph. -/
theorem c5_roundtrip_dedup (g : Store) :
    (∀ raws, GoodNames g → Encodes raws (export_to_csv g).2 →
        ((dedupRows (import_from_csv raws).1).map canonRow).Perm
          ((dedupRows g).map canonRow))
    ∧ ((dedupRows (import_from_json
          (JsonFile.withRoutes (export_to_json g).1 (export_to_json g).2))).map canonRow).Perm
        ((dedupRows g).map canonRow) := by
  have hnd : ((dedupRows g).map canonKey).Nodup := by
    rw [dedupRows_eq]; exact dedupByKey_keys_nodup _ _
  constructor
  · intro raws hgood henc
    have himp : import_from_csv raws = (buildStore (dedupRows g), none) :=
      importCsvFrom_encoded raws (dedupRows g) henc hgood emptyStore
    rw [himp]
    exact dedup_buildStore_perm _ hnd
  · have hjson : import_from_json
        (JsonFile.withRoutes (export_to_json g).1 (export_to_json g).2)
        = buildStore (dedupRows g) := by
      rw [import_from_json, routesOf]
      congr 1
      show ((dedupRows g).map (fun r => JsonRoute.mk r.1 r.2.1 r.2.2.1 r.2.2.2)).map
          (fun r => (r.origin, r.destination, r.distance, r.fare)) = dedupRows g
      rw [List.map_map]
      have hid : ((fun r : JsonRoute => (r.origin, r.destination, r.distance, r.fare)) ∘
          (fun r : Row => JsonRoute.mk r.1 r.2.1 r.2.2.1 r.2.2.2)) = id := by
        funext r
        rfl
      rw [hid, List.map_id]
    rw [hjson]
    exact dedup_buildStore_perm _ hnd

/-- Witness for C5 (amended) on the one-edge graph A–B. -/
theorem c5_roundtrip_dedup_witness :
    GoodNames (add_edge emptyStore "A" "B" 1 2)
    ∧ Encodes [[("Origin", "A"), ("Destination", "B"), ("Distance_km", "1"), ("Fare_pesos", "2")]]
        (export_to_csv (add_edge emptyStore "A" "B" 1 2)).2
    ∧ ((dedupRows (import_from_csv
          [[("Origin", "A"), ("Destination", "B"), ("Distance_km", "1"), ("Fare_pesos", "2")]]).1).map
            canonRow).Perm
        ((dedupRows (add_edge emptyStore "A" "B" 1 2)).map canonRow) := by
  have henc : Encodes
      [[("Origin", "A"), ("Destination", "B"), ("Distance_km", "1"), ("Fare_pesos", "2")]]
      (export_to_csv (add_edge emptyStore "A" "B" 1 2)).2 := by
    have hexp : (export_to_csv (add_edge emptyStore "A" "B" 1 2)).2
        = [("A", "B", (1 : ℚ), 2)] := by decide
    rw [hexp]
    exact List.Forall₂.cons ⟨"1", "2", rfl, by decide, by decide⟩ List.Forall₂.nil
  exact ⟨by decide, henc,
    (c5_roundtrip_dedup (add_edge emptyStore "A" "B" 1 2)).1 _ (by decide) henc⟩

/-! ### The frontier: popping a minimum -/

/-- A smaller entry under the tuple order has a cost no larger. -/
theorem entryLt_cost_le (a b : Entry) (h : entryLt a b = true) : a.1 ≤ b.1 := by
  rw [entryLt] at h
  by_cases h1 : a.1 < b.1
  · exact le_of_lt h1
  · rw [if_neg h1] at h
    by_cases h2 : b.1 < a.1
    · rw [if_pos h2] at h
      exact absurd h (by simp)
    · exact le_of_not_lt h2

/-- A not-smaller entry under the tuple order has a cost no smaller. -/
theorem not_entryLt_cost_le (a b : Entry) (h : entryLt a b = false) : b.1 ≤ a.1 := by
  by_cases h1 : a.1 < b.1
  · rw [entryLt, if_pos h1] at h
    exact absurd h (by simp)
  · exact le_of_not_lt h1

/-- The scan of `popMinAux` returns a permutation of its inputs whose head
has minimal cost. -/
theorem popMinAux_spec :
    ∀ (l : List Entry) (e : Entry) (acc : List Entry),
      (∀ x ∈ acc, e.1 ≤ x.1) →
      ((popMinAux e acc l).1 :: (popMinAux e acc l).2).Perm (e :: (acc ++ l))
      ∧ (∀ x ∈ (popMinAux e acc l).2, (popMinAux e acc l).1.1 ≤ x.1)
      ∧ (popMinAux e acc l).1.1 ≤ e.1
  | [], e, acc => by
      intro hacc
      rw [popMinAux]
      refine ⟨?_, ?_, le_refl _⟩
      · exact List.Perm.cons e (by simpa using (acc.reverse_perm))
      · intro x hx
        exact hacc x (List.mem_reverse.mp hx)
  | x :: xs, e, acc => by
      intro hacc
      rw [popMinAux]
      by_cases hlt : entryLt x e = true
      · rw [if_pos hlt]
        have hpre : ∀ y ∈ e :: acc, x.1 ≤ y.1 := by
          intro y hy
          rcases List.mem_cons.mp hy with rfl | hy
          · exact entryLt_cost_le x y hlt
          · exact le_trans (entryLt_cost_le x e hlt) (hacc y hy)
        obtain ⟨hperm, hmin, hle⟩ := popMinAux_spec xs x (e :: acc) hpre
        refine ⟨?_, hmin, le_trans hle (entryLt_cost_le x e hlt)⟩
        refine hperm.trans ?_
        have h1 : List.Perm (x :: e :: (acc ++ xs)) (e :: x :: (acc ++ xs)) :=
          List.Perm.swap e x _
        have h2 : List.Perm (e :: x :: (acc ++ xs)) (e :: (acc ++ x :: xs)) :=
          List.Perm.cons e List.perm_middle.symm
        exact h1.trans h2
      · rw [if_neg hlt]
        have hxf : entryLt x e = false := Bool.not_eq_true _ ▸ (by simpa using hlt)
        have hpre : ∀ y ∈ x :: acc, e.1 ≤ y.1 := by
          intro y hy
          rcases List.mem_cons.mp hy with rfl | hy
          · exact not_entryLt_cost_le y e hxf
          · exact hacc y hy
        obtain ⟨hperm, hmin, hle⟩ := popMinAux_spec xs e (x :: acc) hpre
        refine ⟨?_, hmin, hle⟩
        refine hperm.trans ?_
        exact List.Perm.cons e List.perm_middle.symm

/-- `popMin` on a non-empty frontier: a permutation split with a minimal
head. -/
theorem popMin_spec (pq : List Entry) (e : Entry) (rest : List Entry)
    (h : popMin pq = some (e, rest)) :
    pq.Perm (e :: rest) ∧ ∀ x ∈ rest, e.1 ≤ x.1 := by
  match pq, h with
  | x :: xs, h =>
      rw [popMin] at h
      have hep : popMinAux x [] xs = (e, rest) := Option.some.inj h
      obtain ⟨hperm, hmin, _⟩ := popMinAux_spec xs x [] (by intro y hy; simp at hy)
      rw [hep] at hperm hmin
      simp only [List.nil_append] at hperm
      exact ⟨hperm.symm, hmin⟩

theorem popMin_none (pq : List Entry) (h : popMin pq = none) : pq = [] := by
  cases pq with
  | nil => rfl
  | cons x xs => rw [popMin] at h; exact Option.noConfusion h

/-! ### Relaxation -/

theorem get_neighbors_sub :
    ∀ (es : List (String × List Adj)) (n : String), ∀ x ∈ lookupEdges es n,
      ∃ k l, (k, l) ∈ es ∧ x ∈ l
  | [], n, x, hx => absurd hx (List.not_mem_nil x)
  | (k, v) :: rest, n, x, hx => by
      rw [lookupEdges] at hx
      by_cases hk : k = n
      · rw [if_pos hk] at hx
        exact ⟨k, v, List.mem_cons_self _ _, hx⟩
      · rw [if_neg hk] at hx
        obtain ⟨k2, l2, hm, hx2⟩ := get_neighbors_sub rest n x hx
        exact ⟨k2, l2, List.mem_cons_of_mem _ hm, hx2⟩

/-- Every adjacency target is in the frontier universe. -/
theorem neighbor_target_mem_universe (g : Store) (n : String) (e : Adj)
    (he : e ∈ get_neighbors g n) : e.1 ∈ nodeUniverse g := by
  obtain ⟨k, l, hkl, hel⟩ := get_neighbors_sub g.edges n e he
  rw [nodeUniverse]
  refine List.mem_append.mpr (Or.inr ?_)
  rw [List.mem_flatten]
  exact ⟨l.map (fun x => x.1), List.mem_map.mpr ⟨(k, l), hkl, rfl⟩,
    List.mem_map.mpr ⟨e, hel, rfl⟩⟩

/-- Relaxation never increases a distance. -/
theorem relaxAll_dist_le (c : ℚ) (p : List String) (vis : List String) (wt : String) :
    ∀ (es : List Adj) (dist : String → WithTop ℚ) (x : String),
      (relaxAll c p vis wt es dist).2 x ≤ dist x
  | [], _, _ => le_refl _
  | (b, d, f) :: rest, dist, x => by
      simp only [relaxAll]
      by_cases hb : b ∈ vis
      · rw [if_pos hb]
        exact relaxAll_dist_le c p vis wt rest dist x
      · rw [if_neg hb]
        by_cases hc : ((c + costOfStep wt d f : ℚ) : WithTop ℚ) < dist b
        · rw [if_pos hc]
          refine le_trans (relaxAll_dist_le c p vis wt rest _ x) ?_
          by_cases hx : x = b
          · subst hx
            rw [if_pos rfl]
            exact le_of_lt hc
          · rw [if_neg hx]
        · rw [if_neg hc]
          exact relaxAll_dist_le c p vis wt rest dist x

/-- Relaxation never touches nodes of the visited set. -/
theorem relaxAll_dist_vis (c : ℚ) (p : List String) (vis : List String) (wt : String) :
    ∀ (es : List Adj) (dist : String → WithTop ℚ) (x : String), x ∈ vis →
      (relaxAll c p vis wt es dist).2 x = dist x
  | [], _, _, _ => rfl
  | (b, d, f) :: rest, dist, x, hx => by
      simp only [relaxAll]
      by_cases hb : b ∈ vis
      · rw [if_pos hb]
        exact relaxAll_dist_vis c p vis wt rest dist x hx
      · rw [if_neg hb]
        by_cases hc : ((c + costOfStep wt d f : ℚ) : WithTop ℚ) < dist b
        · rw [if_pos hc]
          rw [relaxAll_dist_vis c p vis wt rest _ x hx]
          have hxb : ¬ x = b := fun he => hb (by rw [← he]; exact hx)
          rw [if_neg hxb]
        · rw [if_neg hc]
          exact relaxAll_dist_vis c p vis wt rest dist x hx

/-- Each final distance is either untouched or recorded by a push. -/
theorem relaxAll_dist_eq_or (c : ℚ) (p : List String) (vis : List String) (wt : String) :
    ∀ (es : List Adj) (dist : String → WithTop ℚ) (x : String),
      (relaxAll c p vis wt es dist).2 x = dist x
      ∨ ∃ q ∈ (relaxAll c p vis wt es dist).1,
          q.2.1 = x ∧ ((q.1 : ℚ) : WithTop ℚ) = (relaxAll c p vis wt es dist).2 x
  | [], _, _ => Or.inl rfl
  | (b, d, f) :: rest, dist, x => by
      simp only [relaxAll]
      by_cases hb : b ∈ vis
      · rw [if_pos hb]
        exact relaxAll_dist_eq_or c p vis wt rest dist x
      · rw [if_neg hb]
        by_cases hc : ((c + costOfStep wt d f : ℚ) : WithTop ℚ) < dist b
        · rw [if_pos hc]
          rcases relaxAll_dist_eq_or c p vis wt rest
              (fun y => if y = b then ((c + costOfStep wt d f : ℚ) : WithTop ℚ) else dist y) x
            with heq | ⟨q, hq, hqx, hqc⟩
          · by_cases hx : x = b
            · subst hx
              refine Or.inr ⟨(c + costOfStep wt d f, x, p ++ [x]), List.mem_cons_self _ _, rfl, ?_⟩
              rw [heq, if_pos rfl]
            · left
              rw [heq, if_neg hx]
          · exact Or.inr ⟨q, List.mem_cons_of_mem _ hq, hqx, hqc⟩
        · rw [if_neg hc]
          exact relaxAll_dist_eq_or c p vis wt rest dist x

/-- Every push extends the popped path by one unvisited neighbor; the
final distance of its node is at most its cost. -/
theorem relaxAll_pushes (c : ℚ) (p : List String) (vis : List String) (wt : String) :
    ∀ (es : List Adj) (dist : String → WithTop ℚ),
      ∀ q ∈ (relaxAll c p vis wt es dist).1,
        ∃ b d f, (b, d, f) ∈ es ∧ b ∉ vis
          ∧ q = (c + costOfStep wt d f, b, p ++ [b])
          ∧ (relaxAll c p vis wt es dist).2 b ≤ ((q.1 : ℚ) : WithTop ℚ)
  | [], _, q, hq => absurd hq (List.not_mem_nil q)
  | (b, d, f) :: rest, dist, q, hq => by
      simp only [relaxAll] at hq ⊢
      by_cases hb : b ∈ vis
      · rw [if_pos hb] at hq ⊢
        obtain ⟨b2, d2, f2, hmem, hnv, hsh, hle⟩ := relaxAll_pushes c p vis wt rest dist q hq
        exact ⟨b2, d2, f2, List.mem_cons_of_mem _ hmem, hnv, hsh, hle⟩
      · rw [if_neg hb] at hq ⊢
        by_cases hc : ((c + costOfStep wt d f : ℚ) : WithTop ℚ) < dist b
        · rw [if_pos hc] at hq ⊢
          rcases List.mem_cons.mp hq with rfl | hq
          · refine ⟨b, d, f, List.mem_cons_self _ _, hb, rfl, ?_⟩
            refine le_trans (relaxAll_dist_le c p vis wt rest _ b) ?_
            rw [if_pos rfl]
          · obtain ⟨b2, d2, f2, hmem, hnv, hsh, hle⟩ :=
              relaxAll_pushes c p vis wt rest _ q hq
            exact ⟨b2, d2, f2, List.mem_cons_of_mem _ hmem, hnv, hsh, hle⟩
        · rw [if_neg hc] at hq ⊢
          obtain ⟨b2, d2, f2, hmem, hnv, hsh, hle⟩ := relaxAll_pushes c p vis wt rest dist q hq
          exact ⟨b2, d2, f2, List.mem_cons_of_mem _ hmem, hnv, hsh, hle⟩

/-- After the pass, every unvisited neighbor is relaxed through the popped
node. -/
theorem relaxAll_relaxes (c : ℚ) (p : List String) (vis : List String) (wt : String) :
    ∀ (es : List Adj) (dist : String → WithTop ℚ), ∀ b d f, (b, d, f) ∈ es → b ∉ vis →
      (relaxAll c p vis wt es dist).2 b ≤ ((c + costOfStep wt d f : ℚ) : WithTop ℚ)
  | [], _, b, d, f, hmem, _ => absurd hmem (List.not_mem_nil _)
  | (b0, d0, f0) :: rest, dist, b, d, f, hmem, hnv => by
      simp only [relaxAll]
      rcases List.mem_cons.mp hmem with he | hmem2
      · obtain ⟨h1, h2, h3⟩ : b = b0 ∧ d = d0 ∧ f = f0 := by simpa using he
        subst h1
        subst h2
        subst h3
        rw [if_neg hnv]
        by_cases hc : ((c + costOfStep wt d f : ℚ) : WithTop ℚ) < dist b
        · rw [if_pos hc]
          refine le_trans (relaxAll_dist_le c p vis wt rest _ b) ?_
          rw [if_pos rfl]
        · rw [if_neg hc]
          exact le_trans (relaxAll_dist_le c p vis wt rest dist b) (le_of_not_lt hc)
      · by_cases hb : b0 ∈ vis
        · rw [if_pos hb]
          exact relaxAll_relaxes c p vis wt rest dist b d f hmem2 hnv
        · rw [if_neg hb]
          by_cases hc : ((c + costOfStep wt d0 f0 : ℚ) : WithTop ℚ) < dist b0
          · rw [if_pos hc]
            exact relaxAll_relaxes c p vis wt rest _ b d f hmem2 hnv
          · rw [if_neg hc]
            exact relaxAll_relaxes c p vis wt rest dist b d f hmem2 hnv

/-- The pass pushes at most one entry per adjacency entry. -/
theorem relaxAll_length (c : ℚ) (p : List String) (vis : List String) (wt : String) :
    ∀ (es : List Adj) (dist : String → WithTop ℚ),
      (relaxAll c p vis wt es dist).1.length ≤ es.length
  | [], _ => le_refl _
  | (b, d, f) :: rest, dist => by
      simp only [relaxAll, List.length_cons]
      by_cases hb : b ∈ vis
      · rw [if_pos hb]
        exact le_trans (relaxAll_length c p vis wt rest dist) (Nat.le_succ _)
      · rw [if_neg hb]
        by_cases hc : ((c + costOfStep wt d f : ℚ) : WithTop ℚ) < dist b
        · rw [if_pos hc]
          exact Nat.succ_le_succ (relaxAll_length c p vis wt rest _)
        · rw [if_neg hc]
          exact le_trans (relaxAll_length c p vis wt rest dist) (Nat.le_succ _)

/-! ### Walks and their costs -/

theorem lastOf_cons (a b : String) (l : List String) : lastOf a (b :: l) = lastOf b l := by
  rw [lastOf, lastOf, List.getLastD_cons]

theorem lastOf_concat (a b : String) (l : List String) : lastOf a (l ++ [b]) = b := by
  rw [lastOf, List.getLastD_concat]

theorem mem_stepWeights (g : Store) (wt a b : String) (d f : ℚ)
    (h : (b, d, f) ∈ get_neighbors g a) : costOfStep wt d f ∈ stepWeights g wt a b := by
  rw [stepWeights]
  exact List.mem_filterMap.mpr ⟨(b, d, f), h, by rw [if_pos rfl]⟩

theorem stepWeights_mem (g : Store) (wt a b : String) (w : ℚ) (h : w ∈ stepWeights g wt a b) :
    ∃ d f, (b, d, f) ∈ get_neighbors g a ∧ w = costOfStep wt d f := by
  rw [stepWeights] at h
  obtain ⟨e, he, hif⟩ := List.mem_filterMap.mp h
  by_cases hb : e.1 = b
  · refine ⟨e.2.1, e.2.2, ?_, ?_⟩
    · have he2 : e = (b, e.2.1, e.2.2) := by rw [← hb]
      rw [← he2]
      exact he
    · rw [if_pos hb] at hif
      exact (Option.some.inj hif).symm
  · rw [if_neg hb] at hif
    exact Option.noConfusion hif

theorem nonneg_neighbors (g : Store) (hnn : NonnegStore g) (u : String) (e : Adj)
    (he : e ∈ get_neighbors g u) : 0 ≤ e.2.1 ∧ 0 ≤ e.2.2 := by
  obtain ⟨k, l, hkl, hel⟩ := get_neighbors_sub g.edges u e he
  exact hnn (k, l) hkl e hel

theorem stepWeights_nonneg (g : Store) (wt : String) (hnn : NonnegStore g)
    (a b : String) (w : ℚ) (hw : w ∈ stepWeights g wt a b) : 0 ≤ w := by
  obtain ⟨d, f, hmem, rfl⟩ := stepWeights_mem g wt a b w hw
  have h2 := nonneg_neighbors g hnn a (b, d, f) hmem
  rw [costOfStep]
  split
  · exact h2.2
  · exact h2.1

theorem pathCost_nonneg (g : Store) (wt : String) (hnn : NonnegStore g) :
    ∀ {a : String} {l : List String} {c : ℚ}, PathCost g wt a l c → 0 ≤ c := by
  intro a l c h
  induction h with
  | nil => exact le_refl 0
  | cons hw _ ih => exact add_nonneg (stepWeights_nonneg _ _ hnn _ _ _ hw) ih

theorem pathCost_snoc (g : Store) (wt : String) :
    ∀ (l : List String) (a : String) (c : ℚ), PathCost g wt a l c →
      ∀ (b : String) (w : ℚ), w ∈ stepWeights g wt (lastOf a l) b →
        PathCost g wt a (l ++ [b]) (c + w)
  | [], a, c, h, b, w, hw => by
      cases h
      have h2 : PathCost g wt a [b] (w + 0) := PathCost.cons hw (PathCost.nil b)
      rw [List.nil_append, zero_add, ← add_zero w]
      exact h2
  | b0 :: rest, a, c, h, b, w, hw => by
      cases h with
      | cons hw0 hr =>
        rename_i w0 c0
        rw [lastOf_cons] at hw
        have h2 := pathCost_snoc g wt rest b0 c0 hr b w hw
        have h3 := PathCost.cons hw0 h2
        rw [List.cons_append, add_assoc]
        exact h3

theorem symAdj_mem (g : Store) (hs : SymAdj g) {a b : String} {d f : ℚ}
    (h : (b, d, f) ∈ get_neighbors g a) : (a, d, f) ∈ get_neighbors g b := by
  have h1 : 0 < (get_neighbors g a).count (b, d, f) := List.count_pos_iff_mem.mpr h
  rw [hs a b d f] at h1
  exact List.count_pos_iff_mem.mp h1

theorem stepWeights_symm (g : Store) (wt : String) (hs : SymAdj g) {a b : String} {w : ℚ}
    (h : w ∈ stepWeights g wt a b) : w ∈ stepWeights g wt b a := by
  obtain ⟨d, f, hmem, rfl⟩ := stepWeights_mem g wt a b w h
  exact mem_stepWeights g wt b a d f (symAdj_mem g hs hmem)

theorem pathCost_rev (g : Store) (wt : String) (hs : SymAdj g) :
    ∀ (l : List String) (u : String) (c : ℚ), PathCost g wt u l c →
      ∃ l2, PathCost g wt (lastOf u l) l2 c ∧ lastOf (lastOf u l) l2 = u
  | [], u, c, h => by
      cases h
      exact ⟨[], PathCost.nil _, rfl⟩
  | b :: rest, u, c, h => by
      cases h with
      | cons hw hr =>
        rename_i w0 c0
        obtain ⟨l2, hp2, hl2⟩ := pathCost_rev g wt hs rest b c0 hr
        rw [lastOf_cons]
        refine ⟨l2 ++ [u], ?_, lastOf_concat _ _ _⟩
        have hw2 : w0 ∈ stepWeights g wt (lastOf (lastOf b rest) l2) u := by
          rw [hl2]
          exact stepWeights_symm g wt hs hw
        have h3 := pathCost_snoc g wt l2 (lastOf b rest) c0 hp2 u w0 hw2
        rw [add_comm]
        exact h3

theorem connCost_rev (g : Store) (wt : String) (hs : SymAdj g) {u v : String} {c : ℚ}
    (h : ConnCost g wt u v c) : ConnCost g wt v u c := by
  obtain ⟨l, hp, hl⟩ := h
  obtain ⟨l2, hp2, hl2⟩ := pathCost_rev g wt hs l u c hp
  rw [hl] at hp2 hl2
  exact ⟨l2, hp2, hl2⟩

theorem hasWalk_connCost (g : Store) (wt : String) {u v : String} (h : HasWalk g u v) :
    ∃ c, ConnCost g wt u v c := by
  induction h with
  | refl a => exact ⟨0, [], PathCost.nil a, rfl⟩
  | @step a b v2 d f he _ ih =>
      obtain ⟨c0, l, hp, hl⟩ := ih
      exact ⟨costOfStep wt d f + c0, b :: l,
        PathCost.cons (mem_stepWeights g wt a b d f he) hp, by rw [lastOf_cons]; exact hl⟩

theorem pathCost_hasWalk (g : Store) (wt : String) :
    ∀ (l : List String) (u : String) (c : ℚ),
      PathCost g wt u l c → HasWalk g u (lastOf u l)
  | [], u, c, h => by
      cases h
      exact HasWalk.refl u
  | b :: rest, u, c, h => by
      cases h with
      | cons hw hr =>
        rename_i w0 c0
        obtain ⟨d, f, hmem, _⟩ := stepWeights_mem g wt u b _ hw
        rw [lastOf_cons]
        exact HasWalk.step hmem (pathCost_hasWalk g wt rest b c0 hr)

theorem connCost_hasWalk (g : Store) (wt : String) {u v : String} {c : ℚ}
    (h : ConnCost g wt u v c) : HasWalk g u v := by
  obtain ⟨l, hp, hl⟩ := h
  have h2 := pathCost_hasWalk g wt l u c hp
  rwa [hl] at h2

/-! ### The loop measure -/

theorem budget_filter_aux (g : Store) (visited : List String) (n : String) (hnv : n ∉ visited) :
    ∀ (l : List String), l.Nodup → n ∈ l →
      ((l.filter (fun x => !((n :: visited).contains x))).map
          (fun m => (get_neighbors g m).length)).sum
        + (get_neighbors g n).length
      = ((l.filter (fun x => !(visited.contains x))).map
          (fun m => (get_neighbors g m).length)).sum
  | [], _, hmem => absurd hmem (List.not_mem_nil n)
  | x :: rest, hnd, hmem => by
      simp only [List.nodup_cons] at hnd
      rw [List.filter_cons, List.filter_cons]
      rcases List.mem_cons.mp hmem with rfl | hmem2
      · have hc1 : (!((n :: visited).contains n)) = false := by simp
        have hc2 : (!(visited.contains n)) = true := by simp [hnv]
        rw [hc1, hc2]
        have hrest : rest.filter (fun x => !((n :: visited).contains x))
            = rest.filter (fun x => !(visited.contains x)) := by
          refine List.filter_congr ?_
          intro y hy
          have hyn : ¬ y = n := fun he => hnd.1 (he ▸ hy)
          simp [hyn]
        rw [if_neg (by simp), if_pos rfl, hrest]
        simp only [List.map_cons, List.sum_cons]
        omega
      · have hxn : ¬ x = n := fun he => hnd.1 (he ▸ hmem2)
        have hsame : (!((n :: visited).contains x)) = (!(visited.contains x)) := by
          simp [hxn]
        rw [hsame]
        have ih := budget_filter_aux g visited n hnv rest hnd.2 hmem2
        by_cases hx : (!(visited.contains x)) = true
        · rw [if_pos hx, if_pos hx]
          simp only [List.map_cons, List.sum_cons]
          omega
        · rw [if_neg hx, if_neg hx]
          exact ih

/-- Visiting a universe node frees exactly its adjacency budget. -/
theorem budget_visit (g : Store) (visited : List String) (n : String)
    (hn : n ∈ nodeUniverse g) (hnv : n ∉ visited) :
    budgetOf g (n :: visited) + (get_neighbors g n).length = budgetOf g visited := by
  rw [budgetOf, budgetOf]
  exact budget_filter_aux g visited n hnv (nodeUniverse g).dedup (List.nodup_dedup _)
    (List.mem_dedup.mpr hn)

/-! ### The Dijkstra loop invariant -/

theorem invB_init (g : Store) (wt start : String) (hstart : start ∈ g.nodes) :
    InvB g wt start [(0, start, [start])] []
      (fun n => if n = start then (0 : WithTop ℚ) else ⊤) := by
  constructor
  · intro e he
    rw [List.mem_singleton] at he
    subst he
    refine ⟨⟨[], rfl, PathCost.nil start, rfl⟩, by simp⟩
  · intro n hnv hne
    by_cases hn : n = start
    · subst hn
      exact ⟨(0, n, [n]), List.mem_singleton.mpr rfl, rfl, by simp⟩
    · exact absurd (by simp [hn]) hne
  · intro m hm
    exact absurd hm (List.not_mem_nil m)
  · intro m hm
    exact absurd hm (List.not_mem_nil m)
  · simp
  · intro e he
    rw [List.mem_singleton] at he
    subst he
    exact List.mem_append.mpr (Or.inl hstart)

/-- Popping an already-settled node just shrinks the frontier. -/
theorem invB_skip (g : Store) (wt start : String) {pq rest : List Entry} {e : Entry}
    {visited : List String} {dist : String → WithTop ℚ}
    (hpop : popMin pq = some (e, rest)) (hv : e.2.1 ∈ visited)
    (hInv : InvB g wt start pq visited dist) :
    InvB g wt start rest visited dist := by
  obtain ⟨hperm, _⟩ := popMin_spec pq e rest hpop
  have hsub : ∀ x ∈ rest, x ∈ pq := fun x hx => hperm.symm.subset (List.mem_cons_of_mem _ hx)
  constructor
  · intro q hq
    exact hInv.entries q (hsub q hq)
  · intro n hnv hne
    obtain ⟨q, hqpq, hqn, hqc⟩ := hInv.pending n hnv hne
    rcases List.mem_cons.mp (hperm.subset hqpq) with rfl | hq2
    · rw [hqn] at hv
      exact absurd hv hnv
    · exact ⟨q, hq2, hqn, hqc⟩
  · exact hInv.relaxed
  · exact hInv.visFin
  · exact hInv.startLe
  · intro q hq
    exact hInv.inUniv q (hsub q hq)

/-- A freshly popped unsettled node is popped at exactly its recorded
distance (it is the frontier minimum). -/
theorem pop_cost_eq (g : Store) (wt start : String) {pq rest : List Entry} {e : Entry}
    {visited : List String} {dist : String → WithTop ℚ}
    (hpop : popMin pq = some (e, rest)) (hnv : e.2.1 ∉ visited)
    (hInv : InvB g wt start pq visited dist) :
    dist e.2.1 = ((e.1 : ℚ) : WithTop ℚ) := by
  obtain ⟨hperm, hmin⟩ := popMin_spec pq e rest hpop
  have hepq : e ∈ pq := hperm.symm.subset (List.mem_cons_self _ _)
  have hle : dist e.2.1 ≤ ((e.1 : ℚ) : WithTop ℚ) := (hInv.entries e hepq).2
  have hne : dist e.2.1 ≠ ⊤ := by
    intro h
    rw [h] at hle
    exact absurd (top_le_iff.mp hle) (WithTop.coe_ne_top)
  obtain ⟨q, hqpq, hqn, hqc⟩ := hInv.pending e.2.1 hnv hne
  rcases List.mem_cons.mp (hperm.subset hqpq) with rfl | hq3
  · exact hqc.symm
  · refine le_antisymm hle ?_
    rw [← hqc]
    exact WithTop.coe_le_coe.mpr (hmin q hq3)

/-- One full visit step preserves the invariant and shrinks the measure. -/
theorem invB_step (g : Store) (wt start : String) {pq rest : List Entry} {e : Entry}
    {visited : List String} {dist : String → WithTop ℚ}
    (hpop : popMin pq = some (e, rest)) (hnv : e.2.1 ∉ visited)
    (hInv : InvB g wt start pq visited dist) :
    InvB g wt start
      (rest ++ (relaxAll e.1 e.2.2 (e.2.1 :: visited) wt (get_neighbors g e.2.1) dist).1)
      (e.2.1 :: visited)
      (relaxAll e.1 e.2.2 (e.2.1 :: visited) wt (get_neighbors g e.2.1) dist).2
    ∧ measureOf g
        (rest ++ (relaxAll e.1 e.2.2 (e.2.1 :: visited) wt (get_neighbors g e.2.1) dist).1)
        (e.2.1 :: visited)
      < measureOf g pq visited := by
  obtain ⟨hperm, hmin⟩ := popMin_spec pq e rest hpop
  have hepq : e ∈ pq := hperm.symm.subset (List.mem_cons_self _ _)
  have hdiste : dist e.2.1 = ((e.1 : ℚ) : WithTop ℚ) := pop_cost_eq g wt start hpop hnv hInv
  have hEok := (hInv.entries e hepq).1
  refine ⟨?_, ?_⟩
  · constructor
    · intro q hq
      rcases List.mem_append.mp hq with hq1 | hq2
      · have h1 := hInv.entries q (hperm.symm.subset (List.mem_cons_of_mem _ hq1))
        exact ⟨h1.1,
          le_trans (relaxAll_dist_le e.1 e.2.2 (e.2.1 :: visited) wt
            (get_neighbors g e.2.1) dist q.2.1) h1.2⟩
      · obtain ⟨b, d, f, hbm, hbnv, hqsh, hble⟩ :=
          relaxAll_pushes e.1 e.2.2 (e.2.1 :: visited) wt (get_neighbors g e.2.1) dist q hq2
        subst hqsh
        refine ⟨?_, hble⟩
        obtain ⟨l, hpp, hpc, hpl⟩ := hEok
        refine ⟨l ++ [b], ?_, ?_, lastOf_concat _ _ _⟩
        · rw [hpp]
          rfl
        · refine pathCost_snoc g wt l start e.1 hpc b _ ?_
          rw [hpl]
          exact mem_stepWeights g wt e.2.1 b d f hbm
    · intro m hmv hmne
      have hmnv : m ∉ visited := fun h => hmv (List.mem_cons_of_mem _ h)
      have hmn : ¬ m = e.2.1 := fun h => hmv (h ▸ List.mem_cons_self _ _)
      rcases relaxAll_dist_eq_or e.1 e.2.2 (e.2.1 :: visited) wt (get_neighbors g e.2.1) dist m
        with heq | ⟨q, hq, hqm, hqc⟩
      · rw [heq] at hmne ⊢
        obtain ⟨q, hqpq, hqn, hqc⟩ := hInv.pending m hmnv hmne
        rcases List.mem_cons.mp (hperm.subset hqpq) with rfl | hq3
        · exact absurd hqn.symm hmn
        · exact ⟨q, List.mem_append.mpr (Or.inl hq3), hqn, hqc⟩
      · exact ⟨q, List.mem_append.mpr (Or.inr hq), hqm, hqc⟩
    · intro m hm e2 he2 hb2
      have hb2v : e2.1 ∉ visited := fun h => hb2 (List.mem_cons_of_mem _ h)
      rcases List.mem_cons.mp hm with rfl | hm2
      · have h1 := relaxAll_relaxes e.1 e.2.2 (e.2.1 :: visited) wt (get_neighbors g e.2.1)
          dist e2.1 e2.2.1 e2.2.2 he2 hb2
        have h2 := relaxAll_dist_vis e.1 e.2.2 (e.2.1 :: visited) wt (get_neighbors g e.2.1)
          dist e.2.1 (List.mem_cons_self _ _)
        rw [h2, hdiste, ← WithTop.coe_add]
        exact h1
      · have h3 := hInv.relaxed m hm2 e2 he2 hb2v
        have h4 := relaxAll_dist_vis e.1 e.2.2 (e.2.1 :: visited) wt (get_neighbors g e.2.1)
          dist m (List.mem_cons_of_mem _ hm2)
        rw [h4]
        exact le_trans (relaxAll_dist_le e.1 e.2.2 (e.2.1 :: visited) wt
          (get_neighbors g e.2.1) dist e2.1) h3
    · intro m hm
      rcases List.mem_cons.mp hm with rfl | hm2
      · rw [relaxAll_dist_vis e.1 e.2.2 (e.2.1 :: visited) wt (get_neighbors g e.2.1)
          dist e.2.1 (List.mem_cons_self _ _), hdiste]
        exact WithTop.coe_ne_top
      · rw [relaxAll_dist_vis e.1 e.2.2 (e.2.1 :: visited) wt (get_neighbors g e.2.1)
          dist m (List.mem_cons_of_mem _ hm2)]
        exact hInv.visFin m hm2
    · exact le_trans (relaxAll_dist_le e.1 e.2.2 (e.2.1 :: visited) wt
        (get_neighbors g e.2.1) dist start) hInv.startLe
    · intro q hq
      rcases List.mem_append.mp hq with hq1 | hq2
      · exact hInv.inUniv q (hperm.symm.subset (List.mem_cons_of_mem _ hq1))
      · obtain ⟨b, d, f, hbm, _, hqsh, _⟩ :=
          relaxAll_pushes e.1 e.2.2 (e.2.1 :: visited) wt (get_neighbors g e.2.1) dist q hq2
        subst hqsh
        exact neighbor_target_mem_universe g e.2.1 (b, d, f) hbm
  · have hU : e.2.1 ∈ nodeUniverse g := hInv.inUniv e hepq
    have hbv := budget_visit g visited e.2.1 hU hnv
    have hlen : pq.length = rest.length + 1 := by
      have h := hperm.length_eq
      simpa using h
    have hRAlen := relaxAll_length e.1 e.2.2 (e.2.1 :: visited) wt (get_neighbors g e.2.1) dist
    rw [measureOf, measureOf, List.length_append]
    omega

/-- Along any walk leaving the visited region, the first unvisited node
has a finite recorded distance (no non-negativity needed). -/
theorem exists_finite_unvisited (g : Store) (wt : String) (visited : List String)
    (dist : String → WithTop ℚ)
    (hrel : ∀ m ∈ visited, ∀ e ∈ get_neighbors g m, e.1 ∉ visited →
        dist e.1 ≤ dist m + (costOfStep wt e.2.1 e.2.2 : WithTop ℚ))
    (hfin : ∀ m ∈ visited, dist m ≠ ⊤) :
    ∀ {u z : String}, HasWalk g u z → z ∉ visited → (dist u ≠ ⊤ ∨ u ∈ visited) →
      ∃ b, b ∉ visited ∧ dist b ≠ ⊤ := by
  intro u z hw
  induction hw with
  | refl a =>
      intro hz hu
      rcases hu with h | h
      · exact ⟨a, hz, h⟩
      · exact absurd h hz
  | @step a b z2 d f he hwr ih =>
      intro hz hu
      by_cases hav : a ∈ visited
      · by_cases hbv : b ∈ visited
        · exact ih hz (Or.inr hbv)
        · refine ⟨b, hbv, ?_⟩
          have h1 := hrel a hav (b, d, f) he hbv
          intro htop
          rw [htop] at h1
          rcases WithTop.add_eq_top.mp (top_le_iff.mp h1) with h4 | h4
          · exact hfin a hav h4
          · exact WithTop.coe_ne_top h4
      · rcases hu with h | h
        · exact ⟨a, hav, h⟩
        · exact absurd h hav

/-- While the target is unvisited and some walk reaches it, the frontier
cannot be empty. -/
theorem frontier_nonempty (g : Store) (wt start endN : String) {pq : List Entry}
    {visited : List String} {dist : String → WithTop ℚ}
    (hInv : InvB g wt start pq visited dist) (hend : endN ∉ visited)
    (hw : HasWalk g start endN) : pq ≠ [] := by
  have hsfin : dist start ≠ ⊤ := by
    intro h
    have h2 := hInv.startLe
    rw [h] at h2
    exact absurd (top_le_iff.mp h2) WithTop.coe_ne_top
  obtain ⟨b, hbnv, hbfin⟩ := exists_finite_unvisited g wt visited dist hInv.relaxed
    hInv.visFin hw hend (Or.inl hsfin)
  obtain ⟨q, hq, _⟩ := hInv.pending b hbnv hbfin
  intro hnil
  rw [hnil] at hq
  exact absurd hq (List.not_mem_nil q)

/-- Walking out of the visited region, some unvisited node is recorded at
no more than the prefix bound plus the remaining walk cost. -/
theorem frontier_reach (g : Store) (wt start : String) (visited : List String)
    (dist : String → WithTop ℚ) (hnn : NonnegStore g)
    (hrel : ∀ m ∈ visited, ∀ e ∈ get_neighbors g m, e.1 ∉ visited →
        dist e.1 ≤ dist m + (costOfStep wt e.2.1 e.2.2 : WithTop ℚ))
    (hmin : InvMin g wt start visited dist) :
    ∀ (l : List String) (u : String) (c : ℚ), PathCost g wt u l c →
      ∀ (pu : ℚ), ConnCost g wt start u pu → dist u ≤ ((pu : ℚ) : WithTop ℚ) →
        lastOf u l ∉ visited →
        ∃ b, b ∉ visited ∧ dist b ≤ ((pu + c : ℚ) : WithTop ℚ)
  | [], u, c, h, pu, hpre, hdu, hlast => by
      cases h
      refine ⟨u, hlast, ?_⟩
      rw [add_zero]
      exact hdu
  | b0 :: rest, u, c, h, pu, hpre, hdu, hlast => by
      cases h with
      | cons hw hr =>
        rename_i w0 c0
        rw [lastOf_cons] at hlast
        by_cases huv : u ∈ visited
        · by_cases hb0 : b0 ∈ visited
          · obtain ⟨pl, hppl, hlpl⟩ := hpre
            have hw2 : w0 ∈ stepWeights g wt (lastOf start pl) b0 := by
              rw [hlpl]
              exact hw
            have hpre2 : ConnCost g wt start b0 (pu + w0) :=
              ⟨pl ++ [b0], pathCost_snoc g wt pl start pu hppl b0 w0 hw2,
                lastOf_concat _ _ _⟩
            have hdb0 : dist b0 ≤ ((pu + w0 : ℚ) : WithTop ℚ) :=
              hmin b0 hb0 (pu + w0) hpre2
            obtain ⟨b, hbv, hble⟩ := frontier_reach g wt start visited dist hnn hrel hmin
              rest b0 c0 hr (pu + w0) hpre2 hdb0 hlast
            exact ⟨b, hbv,
              le_trans hble (WithTop.coe_le_coe.mpr (le_of_eq (add_assoc pu w0 c0)))⟩
          · refine ⟨b0, hb0, ?_⟩
            obtain ⟨d, f, hmem, hwe⟩ := stepWeights_mem g wt u b0 w0 hw
            have h1 := hrel u huv (b0, d, f) hmem hb0
            have h2 : dist b0 ≤ ((pu + w0 : ℚ) : WithTop ℚ) := by
              rw [WithTop.coe_add]
              refine le_trans h1 ?_
              rw [← hwe]
              exact add_le_add_right hdu _
            refine le_trans h2 (WithTop.coe_le_coe.mpr ?_)
            have hc0 : 0 ≤ c0 := pathCost_nonneg g wt hnn hr
            exact add_le_add_left (le_add_of_nonneg_right hc0) pu
        · refine ⟨u, huv, ?_⟩
          refine le_trans hdu (WithTop.coe_le_coe.mpr ?_)
          have hw0 : 0 ≤ w0 := stepWeights_nonneg g wt hnn u b0 w0 hw
          have hc0 : 0 ≤ c0 := pathCost_nonneg g wt hnn hr
          exact le_add_of_nonneg_right (add_nonneg hw0 hc0)

/-- The popped minimum is a lower bound on the cost of every walk from
`start` to any unvisited node. -/
theorem pop_min_le (g : Store) (wt start : String) {pq rest : List Entry} {e : Entry}
    {visited : List String} {dist : String → WithTop ℚ}
    (hnn : NonnegStore g) (hpop : popMin pq = some (e, rest))
    (hInv : InvB g wt start pq visited dist) (hmin : InvMin g wt start visited dist)
    (z : String) (hz : z ∉ visited) (c : ℚ) (hc : ConnCost g wt start z c) :
    ((e.1 : ℚ) : WithTop ℚ) ≤ ((c : ℚ) : WithTop ℚ) := by
  obtain ⟨l, hp, hl⟩ := hc
  have hz2 : lastOf start l ∉ visited := by
    rw [hl]
    exact hz
  obtain ⟨b, hbv, hble⟩ := frontier_reach g wt start visited dist hnn hInv.relaxed hmin
    l start c hp 0 ⟨[], PathCost.nil start, rfl⟩ hInv.startLe hz2
  rw [zero_add] at hble
  have hbfin : dist b ≠ ⊤ := by
    intro h
    rw [h] at hble
    exact absurd (top_le_iff.mp hble) WithTop.coe_ne_top
  obtain ⟨q, hq, hqb, hqc⟩ := hInv.pending b hbv hbfin
  obtain ⟨hperm, hminq⟩ := popMin_spec pq e rest hpop
  rcases List.mem_cons.mp (hperm.subset hq) with rfl | hq2
  · rw [hqc]
    exact hble
  · rw [← hqc] at hble
    exact le_trans (WithTop.coe_le_coe.mpr (hminq q hq2)) hble

/-- One visit step preserves the optimality invariant. -/
theorem invMin_step (g : Store) (wt start : String) {pq rest : List Entry} {e : Entry}
    {visited : List String} {dist : String → WithTop ℚ}
    (hnn : NonnegStore g) (hpop : popMin pq = some (e, rest)) (hnv : e.2.1 ∉ visited)
    (hInv : InvB g wt start pq visited dist) (hmin : InvMin g wt start visited dist) :
    InvMin g wt start (e.2.1 :: visited)
      (relaxAll e.1 e.2.2 (e.2.1 :: visited) wt (get_neighbors g e.2.1) dist).2 := by
  intro m hm c hc
  rcases List.mem_cons.mp hm with rfl | hm2
  · rw [relaxAll_dist_vis e.1 e.2.2 (e.2.1 :: visited) wt (get_neighbors g e.2.1) dist
      e.2.1 (List.mem_cons_self _ _), pop_cost_eq g wt start hpop hnv hInv]
    exact pop_min_le g wt start hnn hpop hInv hmin e.2.1 hnv c hc
  · rw [relaxAll_dist_vis e.1 e.2.2 (e.2.1 :: visited) wt (get_neighbors g e.2.1) dist
      m (List.mem_cons_of_mem _ hm2)]
    exact hmin m hm2 c hc

/-! ### The loop equations and the main loop lemmas -/

theorem dijkstraLoop_none (g : Store) (wt endN : String) (fuel : ℕ) {pq : List Entry}
    (visited : List String) (dist : String → WithTop ℚ) (h : popMin pq = none) :
    dijkstraLoop g wt endN (fuel + 1) pq visited dist = ([], ⊤) := by
  simp only [dijkstraLoop, h]

theorem dijkstraLoop_skip (g : Store) (wt endN : String) (fuel : ℕ)
    {pq rest : List Entry} {e : Entry} (visited : List String)
    (dist : String → WithTop ℚ) (h : popMin pq = some (e, rest)) (hv : e.2.1 ∈ visited) :
    dijkstraLoop g wt endN (fuel + 1) pq visited dist
      = dijkstraLoop g wt endN fuel rest visited dist := by
  simp only [dijkstraLoop, h]
  rw [if_pos hv]

theorem dijkstraLoop_hit (g : Store) (wt endN : String) (fuel : ℕ)
    {pq rest : List Entry} {e : Entry} (visited : List String)
    (dist : String → WithTop ℚ) (h : popMin pq = some (e, rest)) (hnv : e.2.1 ∉ visited)
    (he : e.2.1 = endN) :
    dijkstraLoop g wt endN (fuel + 1) pq visited dist = (e.2.2, ((e.1 : ℚ) : WithTop ℚ)) := by
  simp only [dijkstraLoop, h]
  rw [if_neg hnv, if_pos he]

theorem dijkstraLoop_go (g : Store) (wt endN : String) (fuel : ℕ)
    {pq rest : List Entry} {e : Entry} (visited : List String)
    (dist : String → WithTop ℚ) (h : popMin pq = some (e, rest)) (hnv : e.2.1 ∉ visited)
    (hne : ¬ e.2.1 = endN) :
    dijkstraLoop g wt endN (fuel + 1) pq visited dist
      = dijkstraLoop g wt endN fuel
          (rest ++ (relaxAll e.1 e.2.2 (e.2.1 :: visited) wt (get_neighbors g e.2.1) dist).1)
          (e.2.1 :: visited)
          (relaxAll e.1 e.2.2 (e.2.1 :: visited) wt (get_neighbors g e.2.1) dist).2 := by
  simp only [dijkstraLoop, h]
  rw [if_neg hnv, if_neg hne]

/-- Soundness shape: the loop produces the sentinel or a real walk from
`start` to `endN` at the returned cost. -/
theorem loop_cases (g : Store) (wt start endN : String) :
    ∀ (fuel : ℕ) (pq : List Entry) (visited : List String) (dist : String → WithTop ℚ),
      InvB g wt start pq visited dist →
      dijkstraLoop g wt endN fuel pq visited dist = ([], (⊤ : WithTop ℚ))
      ∨ ∃ c l, dijkstraLoop g wt endN fuel pq visited dist
            = (start :: l, ((c : ℚ) : WithTop ℚ))
          ∧ PathCost g wt start l c ∧ lastOf start l = endN
  | 0, pq, visited, dist, _ => Or.inl rfl
  | fuel + 1, pq, visited, dist, hInv => by
      cases hpop : popMin pq with
      | none =>
          rw [dijkstraLoop_none g wt endN fuel visited dist hpop]
          exact Or.inl rfl
      | some pr =>
          obtain ⟨e, rest⟩ := pr
          by_cases hv : e.2.1 ∈ visited
          · rw [dijkstraLoop_skip g wt endN fuel visited dist hpop hv]
            exact loop_cases g wt start endN fuel rest visited dist
              (invB_skip g wt start hpop hv hInv)
          · by_cases he : e.2.1 = endN
            · rw [dijkstraLoop_hit g wt endN fuel visited dist hpop hv he]
              have hepq : e ∈ pq :=
                (popMin_spec pq e rest hpop).1.symm.subset (List.mem_cons_self _ _)
              obtain ⟨l, hpp, hpc, hpl⟩ := (hInv.entries e hepq).1
              refine Or.inr ⟨e.1, l, ?_, hpc, by rw [hpl]; exact he⟩
              rw [hpp]
            · rw [dijkstraLoop_go g wt endN fuel visited dist hpop hv he]
              exact loop_cases g wt start endN fuel _ _ _
                (invB_step g wt start hpop hv hInv).1

/-- Completeness: with fuel covering the measure, a walk to the unvisited
target forces a finite answer. -/
theorem loop_complete (g : Store) (wt start endN : String) (hw : HasWalk g start endN) :
    ∀ (fuel : ℕ) (pq : List Entry) (visited : List String) (dist : String → WithTop ℚ),
      measureOf g pq visited ≤ fuel →
      InvB g wt start pq visited dist → endN ∉ visited →
      (dijkstraLoop g wt endN fuel pq visited dist).2 ≠ ⊤
  | 0, pq, visited, dist, hfuel, hInv, hend => by
      have hne : pq ≠ [] := frontier_nonempty g wt start endN hInv hend hw
      rw [measureOf] at hfuel
      have hz : pq.length = 0 := by omega
      exact absurd (List.length_eq_zero.mp hz) hne
  | fuel + 1, pq, visited, dist, hfuel, hInv, hend => by
      cases hpop : popMin pq with
      | none =>
          exact absurd (popMin_none pq hpop)
            (frontier_nonempty g wt start endN hInv hend hw)
      | some pr =>
          obtain ⟨e, rest⟩ := pr
          have hlen : pq.length = rest.length + 1 := by
            have h := (popMin_spec pq e rest hpop).1.length_eq
            simpa using h
          by_cases hv : e.2.1 ∈ visited
          · rw [dijkstraLoop_skip g wt endN fuel visited dist hpop hv]
            refine loop_complete g wt start endN hw fuel rest visited dist ?_
              (invB_skip g wt start hpop hv hInv) hend
            rw [measureOf] at hfuel ⊢
            omega
          · by_cases he : e.2.1 = endN
            · rw [dijkstraLoop_hit g wt endN fuel visited dist hpop hv he]
              exact WithTop.coe_ne_top
            · rw [dijkstraLoop_go g wt endN fuel visited dist hpop hv he]
              obtain ⟨hInv2, hmeas⟩ := invB_step g wt start hpop hv hInv
              refine loop_complete g wt start endN hw fuel _ _ _ (by omega) hInv2 ?_
              intro hc
              rcases List.mem_cons.mp hc with h1 | h1
              · exact he h1.symm
              · exact hend h1

/-- Minimality: with fuel covering the measure, the answer is at most the
cost of every walk from `start` to the unvisited target. -/
theorem loop_min (g : Store) (wt start endN : String) (hnn : NonnegStore g)
    (c : ℚ) (hc : ConnCost g wt start endN c) :
    ∀ (fuel : ℕ) (pq : List Entry) (visited : List String) (dist : String → WithTop ℚ),
      measureOf g pq visited ≤ fuel →
      InvB g wt start pq visited dist →
      InvMin g wt start visited dist → endN ∉ visited →
      (dijkstraLoop g wt endN fuel pq visited dist).2 ≤ ((c : ℚ) : WithTop ℚ)
  | 0, pq, visited, dist, hfuel, hInv, hmin, hend => by
      have hne : pq ≠ [] := frontier_nonempty g wt start endN hInv hend
        (connCost_hasWalk g wt hc)
      rw [measureOf] at hfuel
      have hz : pq.length = 0 := by omega
      exact absurd (List.length_eq_zero.mp hz) hne
  | fuel + 1, pq, visited, dist, hfuel, hInv, hmin, hend => by
      cases hpop : popMin pq with
      | none =>
          exact absurd (popMin_none pq hpop)
            (frontier_nonempty g wt start endN hInv hend (connCost_hasWalk g wt hc))
      | some pr =>
          obtain ⟨e, rest⟩ := pr
          have hlen : pq.length = rest.length + 1 := by
            have h := (popMin_spec pq e rest hpop).1.length_eq
            simpa using h
          by_cases hv : e.2.1 ∈ visited
          · rw [dijkstraLoop_skip g wt endN fuel visited dist hpop hv]
            refine loop_min g wt start endN hnn c hc fuel rest visited dist ?_
              (invB_skip g wt start hpop hv hInv) hmin hend
            rw [measureOf] at hfuel ⊢
            omega
          · by_cases he : e.2.1 = endN
            · rw [dijkstraLoop_hit g wt endN fuel visited dist hpop hv he]
              refine pop_min_le g wt start hnn hpop hInv hmin e.2.1 hv c ?_
              rw [he]
              exact hc
            · rw [dijkstraLoop_go g wt endN fuel visited dist hpop hv he]
              obtain ⟨hInv2, hmeas⟩ := invB_step g wt start hpop hv hInv
              refine loop_min g wt start endN hnn c hc fuel _ _ _ (by omega) hInv2
                (invMin_step g wt start hnn hpop hv hInv hmin) ?_
              intro hcm
              rcases List.mem_cons.mp hcm with h1 | h1
              · exact he h1.symm
              · exact hend h1

/-- The initial measure equals the fuel supplied by `dijkstra`. -/
theorem measure_init (g : Store) (start : String) :
    measureOf g [((0 : ℚ), start, [start])] [] = fuelBound g := by
  rw [measureOf, fuelBound, budgetOf]
  simp

/-- Both endpoints known and connected: the search cannot answer `⊤`. -/
theorem dijkstra_complete (g : Store) (start endN wt : String)
    (hs : start ∈ g.nodes) (he : endN ∈ g.nodes) (hw : HasWalk g start endN) :
    (dijkstra g start endN wt).2 ≠ ⊤ := by
  rw [dijkstra, if_pos ⟨hs, he⟩]
  exact loop_complete g wt start endN hw (fuelBound g) _ _ _
    (le_of_eq (measure_init g start)) (invB_init g wt start hs) (List.not_mem_nil endN)

/-- The search result is a lower bound for every connecting walk. -/
theorem dijkstra_min (g : Store) (start endN wt : String) (hnn : NonnegStore g)
    (hs : start ∈ g.nodes) (he : endN ∈ g.nodes) (c : ℚ)
    (hc : ConnCost g wt start endN c) :
    (dijkstra g start endN wt).2 ≤ ((c : ℚ) : WithTop ℚ) := by
  rw [dijkstra, if_pos ⟨hs, he⟩]
  refine loop_min g wt start endN hnn c hc (fuelBound g) _ _ _
    (le_of_eq (measure_init g start)) (invB_init g wt start hs) ?_
    (List.not_mem_nil endN)
  intro m hm
  exact absurd hm (List.not_mem_nil m)

/-- The search returns the sentinel or a genuine walk at its cost. -/
theorem dijkstra_sound (g : Store) (start endN wt : String) :
    dijkstra g start endN wt = ([], (⊤ : WithTop ℚ))
    ∨ ∃ c l, dijkstra g start endN wt = (start :: l, ((c : ℚ) : WithTop ℚ))
        ∧ PathCost g wt start l c ∧ lastOf start l = endN := by
  rw [dijkstra]
  by_cases hmem : start ∈ g.nodes ∧ endN ∈ g.nodes
  · rw [if_pos hmem]
    exact loop_cases g wt start endN (fuelBound g) _ _ _ (invB_init g wt start hmem.1)
  · rw [if_neg hmem]
    exact Or.inl rfl

/-- C3: on every reachable store, `dijkstra` returns the sentinel
`([], ⊤)` exactly when the start or end node is absent from the node set
or when both exist but no walk connects them (so the two cases are
indistinguishable from the return value); in particular, on the seed
network `dijkstra "Nowhere" "Gusa" "fare"` returns `([], ⊤)`. -/
theorem c3_sentinel_iff (g : Store) (hre : Reachable g) (s e m : String) :
    (dijkstra g s e m = ([], (⊤ : WithTop ℚ))
      ↔ (s ∉ g.nodes ∨ e ∉ g.nodes ∨ ¬ HasWalk g s e))
    ∧ dijkstra create_transportation_network "Nowhere" "Gusa" "fare"
        = ([], (⊤ : WithTop ℚ)) := by
  constructor
  · constructor
    · intro h
      by_cases hs : s ∈ g.nodes
      · by_cases he : e ∈ g.nodes
        · refine Or.inr (Or.inr ?_)
          intro hw
          exact dijkstra_complete g s e m hs he hw (by rw [h])
        · exact Or.inr (Or.inl he)
      · exact Or.inl hs
    · intro h
      rcases h with h | h | h
      · rw [dijkstra, if_neg (fun hc => h hc.1)]
      · rw [dijkstra, if_neg (fun hc => h hc.2)]
      · rcases dijkstra_sound g s e m with h2 | ⟨c, l, h2, hp, hl⟩
        · exact h2
        · exact absurd (connCost_hasWalk g m (⟨l, hp, hl⟩ : ConnCost g m s e c)) h
  · decide

theorem c3_sentinel_iff_witness :
    Reachable create_transportation_network
    ∧ dijkstra create_transportation_network "Nowhere" "Gusa" "fare"
        = ([], (⊤ : WithTop ℚ)) :=
  ⟨reachable_seed,
    (c3_sentinel_iff create_transportation_network reachable_seed "Nowhere" "Gusa" "fare").2⟩

/-- C4: on every reachable store with non-negative weights, the cost
component of the search is symmetric in its endpoints, for every metric
string and every pair of nodes. -/
theorem c4_cost_symmetry (g : Store) (hre : Reachable g) (hnn : NonnegStore g)
    (wt u v : String) : (dijkstra g u v wt).2 = (dijkstra g v u wt).2 := by
  have hs : SymAdj g := symAdj_reachable g hre
  by_cases hu : u ∈ g.nodes
  · by_cases hv : v ∈ g.nodes
    · by_cases hw : HasWalk g u v
      · have hw2 : HasWalk g v u := by
          obtain ⟨c0, hc0⟩ := hasWalk_connCost g wt hw
          exact connCost_hasWalk g wt (connCost_rev g wt hs hc0)
        rcases dijkstra_sound g u v wt with h1 | ⟨c1, l1, he1, hp1, hl1⟩
        · exact absurd (by rw [h1] : (dijkstra g u v wt).2 = ⊤)
            (dijkstra_complete g u v wt hu hv hw)
        · rcases dijkstra_sound g v u wt with h2 | ⟨c2, l2, he2, hp2, hl2⟩
          · exact absurd (by rw [h2] : (dijkstra g v u wt).2 = ⊤)
              (dijkstra_complete g v u wt hv hu hw2)
          · have hle1 : (dijkstra g v u wt).2 ≤ ((c1 : ℚ) : WithTop ℚ) :=
              dijkstra_min g v u wt hnn hv hu c1
                (connCost_rev g wt hs (⟨l1, hp1, hl1⟩ : ConnCost g wt u v c1))
            have hle2 : (dijkstra g u v wt).2 ≤ ((c2 : ℚ) : WithTop ℚ) :=
              dijkstra_min g u v wt hnn hu hv c2
                (connCost_rev g wt hs (⟨l2, hp2, hl2⟩ : ConnCost g wt v u c2))
            rw [he1] at hle2 ⊢
            rw [he2] at hle1 ⊢
            exact le_antisymm hle2 hle1
      · have hw2 : ¬ HasWalk g v u := by
          intro h2
          obtain ⟨c0, hc0⟩ := hasWalk_connCost g wt h2
          exact hw (connCost_hasWalk g wt (connCost_rev g wt hs hc0))
        rcases dijkstra_sound g u v wt with h1 | ⟨c1, l1, he1, hp1, hl1⟩
        · rcases dijkstra_sound g v u wt with h2 | ⟨c2, l2, he2, hp2, hl2⟩
          · rw [h1, h2]
          · exact absurd (connCost_hasWalk g wt (⟨l2, hp2, hl2⟩ : ConnCost g wt v u c2)) hw2
        · exact absurd (connCost_hasWalk g wt (⟨l1, hp1, hl1⟩ : ConnCost g wt u v c1)) hw
    · rw [dijkstra, dijkstra, if_neg (fun hc => hv hc.2), if_neg (fun hc => hv hc.1)]
  · rw [dijkstra, dijkstra, if_neg (fun hc => hu hc.1), if_neg (fun hc => hu hc.2)]

unseal Rat.add Rat.ofScientific Rat.mul Rat.inv Rat.sub in
theorem c4_cost_symmetry_witness :
    Reachable create_transportation_network
    ∧ NonnegStore create_transportation_network
    ∧ (dijkstra create_transportation_network "Tagoloan" "Indahag" "fare").2
      = (dijkstra create_transportation_network "Indahag" "Tagoloan" "fare").2 :=
  ⟨reachable_seed, by decide,
    c4_cost_symmetry create_transportation_network reachable_seed (by decide)
      "fare" "Tagoloan" "Indahag"⟩

end TG
